import Mathlib

/-!
Verification of the pf8 archive library (crates `pf8` / `pfs-rs`).

Shallow embedding conventions:
* Byte buffers, strings and keys are `List Nat` (a byte per element).
* Files on disk are identified with their byte content; the filesystem a
  builder reads from is passed as explicit data.
* Fallible Rust functions return `Except Error α`; a Rust panic that is
  reachable is modelled as `Option`/a dedicated error where noted.
* `u32`/`u64` arithmetic wraps; wrapping is written `% 4294967296` (resp.
  `% 2^64`) exactly where the Rust value is a machine integer.
-/

set_option maxHeartbeats 1000000
set_option maxRecDepth 10000

namespace Pfs

/-- Error type (src/pf8/src/error.rs).  `Io`'s payload is reduced to a
message; the `Cancelled` variant is the one produced by
`reader.rs`/`builder.rs` on an aborting callback. -/
inductive Error where
  | Io (msg : String)
  | InvalidFormat (msg : String)
  | FileNotFound (msg : String)
  | InvalidUtf8
  | Crypto (msg : String)
  | Corrupted (msg : String)
  | Cancelled
deriving DecidableEq, Repr

instance {ε α : Type} [DecidableEq ε] [DecidableEq α] :
    DecidableEq (Except ε α)
  | .ok a, .ok b =>
    if h : a = b then .isTrue (by rw [h])
    else .isFalse (fun hc => by cases hc; exact h rfl)
  | .error a, .error b =>
    if h : a = b then .isTrue (by rw [h])
    else .isFalse (fun hc => by cases hc; exact h rfl)
  | .ok _, .error _ => .isFalse (fun hc => by cases hc)
  | .error _, .ok _ => .isFalse (fun hc => by cases hc)

/-- src/pf8/src/constants.rs: 4 MiB buffer. -/
def BUFFER_SIZE : Nat := 4 * 1024 * 1024

/-- src/pf8/src/constants.rs: default unencrypted extensions
`["mp4", "flv"]`, as byte strings. -/
def UNENCRYPTED_FILTER : List (List Nat) :=
  [[109, 112, 52], [102, 108, 118]]

/-- The keystream byte `key[i % key.len()]`.  Rust panics on an empty key
(`i % 0`); the `getD` default 0 is never consulted for the nonempty keys
the library derives. -/
def keyByte (key : List Nat) (i : Nat) : Nat :=
  key.getD (i % key.length) 0

/-- `buffer[i] ^= key[(off + i) % key.len()]` — the XOR keystream applied
from entry-local offset `off`.  This is the loop body shared by
`crypto::encrypt`/`decrypt` (src/pf8/src/crypto.rs) and the inline
decryption loops of src/pf8/src/reader.rs. -/
def xorAt (key : List Nat) : Nat → List Nat → List Nat
  | _, [] => []
  | off, b :: rest => (b ^^^ keyByte key off) :: xorAt key (off + 1) rest

/-- src/pf8/src/crypto.rs `encrypt`: XOR from offset 0. -/
def encrypt (data key : List Nat) : List Nat := xorAt key 0 data

/-- src/pf8/src/crypto.rs `decrypt`: identical transformation. -/
def decrypt (data key : List Nat) : List Nat := xorAt key 0 data

/-- Processing a list of consecutive chunks, carrying the entry-local
cumulative byte offset (the `total_written`/`bytes_read` counter of
writer.rs / reader.rs). -/
def processChunksXor (key : List Nat) : Nat → List (List Nat) → List Nat
  | _, [] => []
  | off, c :: cs => xorAt key off c ++ processChunksXor key (off + c.length) cs

/-- Splitting a buffer into consecutive chunks of size `n` (the last chunk
may be shorter), as the `min(BUFFER_SIZE, remaining)` loops do. -/
def chunksOf (n : Nat) : List α → List (List α)
  | [] => []
  | a :: l => (a :: l.take (n - 1)) :: chunksOf n (l.drop (n - 1))
termination_by l => l.length
decreasing_by simp [List.length_drop]; omega

theorem xorAt_length (key : List Nat) (off : Nat) (data : List Nat) :
    (xorAt key off data).length = data.length := by
  induction data generalizing off with
  | nil => rfl
  | cons b rest ih => simp [xorAt, ih]

theorem xorAt_append (key : List Nat) (off : Nat) (a b : List Nat) :
    xorAt key off (a ++ b) = xorAt key off a ++ xorAt key (off + a.length) b := by
  induction a generalizing off with
  | nil => simp [xorAt]
  | cons x xs ih =>
      simp only [List.cons_append, xorAt, List.length_cons]
      rw [show xs.append b = xs ++ b from rfl, ih,
        show off + (xs.length + 1) = off + 1 + xs.length by omega]

theorem xorAt_xorAt (key : List Nat) (off : Nat) (data : List Nat) :
    xorAt key off (xorAt key off data) = data := by
  induction data generalizing off with
  | nil => rfl
  | cons b rest ih =>
      simp [xorAt, ih, Nat.xor_assoc]

theorem processChunksXor_eq_flatten (key : List Nat) (off : Nat)
    (cs : List (List Nat)) :
    processChunksXor key off cs = xorAt key off cs.flatten := by
  induction cs generalizing off with
  | nil => rfl
  | cons c cs ih =>
      simp [processChunksXor, List.flatten, xorAt_append, ih]

theorem chunksOf_flatten (n : Nat) (l : List α) :
    (chunksOf n l).flatten = l := by
  match l with
  | [] => rw [chunksOf]; rfl
  | a :: l =>
      rw [chunksOf]
      simp only [List.flatten_cons]
      rw [chunksOf_flatten n (l.drop (n - 1))]
      simp [List.take_append_drop]
termination_by l.length
decreasing_by simp [List.length_drop]; omega

theorem processChunksXor_chunksOf (key : List Nat) (n : Nat) (data : List Nat) :
    processChunksXor key 0 (chunksOf n data) = xorAt key 0 data := by
  rw [processChunksXor_eq_flatten, chunksOf_flatten]

/-! ## SHA-1 (the `sha1` crate dependency of src/pf8/src/crypto.rs),
implemented as the standard pure function on byte lists. -/

/-- 32-bit left rotation. -/
def rotl (n x : Nat) : Nat :=
  ((x <<< n) ||| (x >>> (32 - n))) % 4294967296

/-- Big-endian bytes of a 32-bit word. -/
def bytesBE4 (w : Nat) : List Nat :=
  [w >>> 24 % 256, w >>> 16 % 256, w >>> 8 % 256, w % 256]

/-- Big-endian bytes of a 64-bit word. -/
def bytesBE8 (w : Nat) : List Nat :=
  [w >>> 56 % 256, w >>> 48 % 256, w >>> 40 % 256, w >>> 32 % 256,
   w >>> 24 % 256, w >>> 16 % 256, w >>> 8 % 256, w % 256]

/-- A 32-bit word from 4 big-endian bytes. -/
def wordBE (bs : List Nat) : Nat :=
  (bs.getD 0 0) <<< 24 ||| (bs.getD 1 0) <<< 16 ||| (bs.getD 2 0) <<< 8 ||| bs.getD 3 0

/-- SHA-1 message padding: append 0x80, zeros to 56 mod 64, then the
bit length as 8 big-endian bytes. -/
def sha1Pad (msg : List Nat) : List Nat :=
  msg ++ 128 :: List.replicate ((120 - (msg.length + 1) % 64) % 64) 0
      ++ bytesBE8 (8 * msg.length)

/-- One step of the message-schedule extension: append
`rotl1 (w[t-3] xor w[t-8] xor w[t-14] xor w[t-16])`. -/
def schedStep (acc : List Nat) : List Nat :=
  acc ++ [rotl 1 ((acc.getD (acc.length - 3) 0) ^^^ (acc.getD (acc.length - 8) 0)
      ^^^ (acc.getD (acc.length - 14) 0) ^^^ (acc.getD (acc.length - 16) 0))]

def iterateFn (f : α → α) : Nat → α → α
  | 0, a => a
  | n + 1, a => iterateFn f n (f a)

/-- The 80-word message schedule from the 16 words of a block. -/
def sha1Schedule (ws : List Nat) : List Nat := iterateFn schedStep 64 ws

def sha1F (i b c d : Nat) : Nat :=
  if i < 20 then (b &&& c) ||| ((b ^^^ 4294967295) &&& d)
  else if i < 40 then b ^^^ c ^^^ d
  else if i < 60 then (b &&& c) ||| (b &&& d) ||| (c &&& d)
  else b ^^^ c ^^^ d

def sha1K (i : Nat) : Nat :=
  if i < 20 then 0x5A827999
  else if i < 40 then 0x6ED9EBA1
  else if i < 60 then 0x8F1BBCDC
  else 0xCA62C1D6

/-- The 80 compression rounds over the schedule words. -/
def sha1Rounds : Nat → List Nat → Nat × Nat × Nat × Nat × Nat → Nat × Nat × Nat × Nat × Nat
  | _, [], st => st
  | i, w :: ws, (a, b, c, d, e) =>
      sha1Rounds (i + 1) ws
        ((rotl 5 a + sha1F i b c d + e + sha1K i + w) % 4294967296,
         a, rotl 30 b, c, d)

/-- Process one 64-byte block. -/
def sha1Block (h : Nat × Nat × Nat × Nat × Nat) (block : List Nat) :
    Nat × Nat × Nat × Nat × Nat :=
  let ws := sha1Schedule ((chunksOf 4 block).map wordBE)
  let (a, b, c, d, e) := sha1Rounds 0 ws h
  ((h.1 + a) % 4294967296, (h.2.1 + b) % 4294967296, (h.2.2.1 + c) % 4294967296,
   (h.2.2.2.1 + d) % 4294967296, (h.2.2.2.2 + e) % 4294967296)

/-- SHA-1 digest (20 bytes) of a byte list. -/
def sha1 (msg : List Nat) : List Nat :=
  let h := (chunksOf 64 (sha1Pad msg)).foldl sha1Block
    (0x67452301, 0xEFCDAB89, 0x98BADCFE, 0x10325476, 0xC3D2E1F0)
  bytesBE4 h.1 ++ bytesBE4 h.2.1 ++ bytesBE4 h.2.2.1 ++ bytesBE4 h.2.2.2.1
    ++ bytesBE4 h.2.2.2.2

theorem sha1_length (msg : List Nat) : (sha1 msg).length = 20 := by
  simp [sha1, bytesBE4]

/-- src/pf8/src/crypto.rs `generate_key`: SHA1 of
`data[0x07 .. 0x07 + index_size]`, falling back to `data[0x07 ..]` when the
buffer is shorter than required.  The fallback slice `&data[7..]` panics in
Rust when `data.len() < 7`; that panic is modelled as `none`. -/
def generate_key (data : List Nat) (index_size : Nat) : Option (List Nat) :=
  let start := 7
  let endPos := start + index_size
  if endPos > data.length then
    if data.length < start then none
    else some (sha1 (data.drop start))
  else
    some (sha1 ((data.drop start).take index_size))

/-! ## Strings, patterns and paths (src/pf8/src/utils.rs).
Rust `&str` values are embedded as their UTF-8 byte lists; paths
(`PathBuf`) as lists of component byte lists. -/

/-- Substring containment, as Rust `str::contains` (byte infix for valid
UTF-8). -/
def containsSub (p : List Nat) : List Nat → Bool
  | [] => p.isEmpty
  | a :: l => p.isPrefixOf (a :: l) || containsSub p l

/-- src/pf8/src/utils.rs `matches_any_pattern`: a pattern beginning with
`'.'` matches by suffix, any other by equality or substring containment. -/
def matches_any_pattern (path : List Nat) (patterns : List (List Nat)) : Bool :=
  patterns.any fun pattern =>
    if pattern.head? = some 46 then
      pattern.isSuffixOf path
    else
      path == pattern || containsSub pattern path

/-- `trim_end_matches('\0')`: strip trailing 0 bytes. -/
def trimEndNulls (name : List Nat) : List Nat :=
  (name.reverse.dropWhile (· == 0)).reverse

/-- src/pf8/src/utils.rs `pf8_path_to_pathbuf`: split on `'\\'` (byte 92). -/
def pf8_path_to_pathbuf (name : List Nat) : List (List Nat) :=
  name.splitOn 92

/-- src/pf8/src/utils.rs `pathbuf_to_pf8_path`: join components with
`'\\'` (byte 92). -/
def pathbuf_to_pf8_path (components : List (List Nat)) : List Nat :=
  [92].intercalate components

/-! ## Format constants and entries (src/pf8/src/format.rs,
src/pf8/src/entry.rs). -/

/-- `b"pf6"`. -/
def PF6_MAGIC : List Nat := [112, 102, 54]

/-- `b"pf8"`. -/
def PF8_MAGIC : List Nat := [112, 102, 56]

inductive ArchiveFormat where
  | Pf6
  | Pf8
deriving DecidableEq, Repr

/-- src/pf8/src/format.rs `RawEntry`. -/
structure RawEntry where
  name : List Nat
  offset : Nat
  size : Nat
deriving DecidableEq, Repr

/-- src/pf8/src/entry.rs `Pf8Entry`. -/
structure Pf8Entry where
  raw : RawEntry
  path : List (List Nat)
  encrypted : Bool
deriving DecidableEq, Repr

/-- src/pf8/src/entry.rs `Pf8Entry::from_raw_with_format`. -/
def Pf8Entry.from_raw_with_format (raw : RawEntry) (patterns : List (List Nat))
    (format : ArchiveFormat) : Pf8Entry :=
  { raw := raw
    path := pf8_path_to_pathbuf (trimEndNulls raw.name)
    encrypted :=
      match format with
      | .Pf6 => false
      | .Pf8 => !matches_any_pattern raw.name patterns }

/-- src/pf8/src/entry.rs `Pf8Entry::new`.  The call in
src/pf8/src/builder.rs passes no pattern argument; per spec §4.5 the
builder materialises entries with the default `UNENCRYPTED_FILTER`
patterns, which callers of this definition supply explicitly. -/
def Pf8Entry.new (path : List (List Nat)) (offset size : Nat)
    (patterns : List (List Nat)) : Pf8Entry :=
  let pf8_name := pathbuf_to_pf8_path path
  { raw := { name := pf8_name, offset := offset, size := size }
    path := path
    encrypted := !matches_any_pattern pf8_name patterns }

/-- src/pf8/src/format.rs `validate_magic`. -/
def validate_magic (data : List Nat) : Except Error ArchiveFormat :=
  if data.length < 3 then .error (.InvalidFormat "Data too short")
  else
    let magic := data.take 3
    if magic = PF6_MAGIC then .ok .Pf6
    else if magic = PF8_MAGIC then .ok .Pf8
    else .error (.InvalidFormat "Not a PF6 or PF8 file")

/-- The little-endian u32 at `off` (total; callers of the unguarded form
have already checked bounds, out-of-range bytes read as 0). -/
def readU32leD (data : List Nat) (off : Nat) : Nat :=
  data.getD off 0 + 256 * data.getD (off + 1) 0 + 65536 * data.getD (off + 2) 0
    + 16777216 * data.getD (off + 3) 0

/-- src/pf8/src/format.rs `read_u32_le` with its bounds check. -/
def read_u32_le (data : List Nat) (off : Nat) : Except Error Nat :=
  if off + 4 > data.length then
    .error (.InvalidFormat "Not enough data to read u32")
  else
    .ok (readU32leD data off)

/-- src/pf8/src/format.rs `get_index_size`. -/
def get_index_size (data : List Nat) : Except Error Nat := do
  let _ ← validate_magic data
  read_u32_le data 3

/-- A UTF-8 continuation byte. -/
def isCont (b : Nat) : Bool := 128 ≤ b && b ≤ 191

/-- UTF-8 validity (RFC 3629), the check behind `String::from_utf8` in
src/pf8/src/format.rs `parse_entries`. -/
def utf8Valid : List Nat → Bool
  | [] => true
  | b :: rest =>
    if b ≤ 127 then utf8Valid rest
    else if 194 ≤ b && b ≤ 223 then
      match rest with
      | c1 :: r => isCont c1 && utf8Valid r
      | [] => false
    else if b = 224 then
      match rest with
      | c1 :: c2 :: r => (160 ≤ c1 && c1 ≤ 191) && isCont c2 && utf8Valid r
      | _ => false
    else if (225 ≤ b && b ≤ 236) || b = 238 || b = 239 then
      match rest with
      | c1 :: c2 :: r => isCont c1 && isCont c2 && utf8Valid r
      | _ => false
    else if b = 237 then
      match rest with
      | c1 :: c2 :: r => (128 ≤ c1 && c1 ≤ 159) && isCont c2 && utf8Valid r
      | _ => false
    else if b = 240 then
      match rest with
      | c1 :: c2 :: c3 :: r =>
          (144 ≤ c1 && c1 ≤ 191) && isCont c2 && isCont c3 && utf8Valid r
      | _ => false
    else if 241 ≤ b && b ≤ 243 then
      match rest with
      | c1 :: c2 :: c3 :: r => isCont c1 && isCont c2 && isCont c3 && utf8Valid r
      | _ => false
    else if b = 244 then
      match rest with
      | c1 :: c2 :: c3 :: r =>
          (128 ≤ c1 && c1 ≤ 143) && isCont c2 && isCont c3 && utf8Valid r
      | _ => false
    else false

/-- The record-walking loop of src/pf8/src/format.rs `parse_entries`.
`fuel` is `index_count - entries.len()` (every iteration pushes one
entry), `cursor` the byte position, `acc` the entries parsed so far in
reverse.  The loop breaks (returning what was parsed) when the region end
is reached, when the `name_length` field itself would read past the
buffer, or when the declared name plus 12 trailing bytes would; it errors
when the name bytes are not UTF-8.  The u32 reads are in bounds whenever
they are reached, so the unguarded `readU32leD` is exact at them. -/
def parseLoop (data : List Nat) (indexEnd : Nat) :
    Nat → Nat → List RawEntry → Except Error (List RawEntry)
  | 0, _, acc => .ok acc.reverse
  | fuel + 1, cursor, acc =>
    if cursor < indexEnd then
      if cursor + 4 > data.length then .ok acc.reverse
      else
        let name_length := readU32leD data cursor
        if cursor + 4 + name_length + 12 > data.length then .ok acc.reverse
        else
          let nameBytes := (data.drop (cursor + 4)).take name_length
          if utf8Valid nameBytes then
            parseLoop data indexEnd fuel (cursor + 4 + name_length + 12)
              ({ name := nameBytes
                 offset := readU32leD data (cursor + 4 + name_length + 4)
                 size := readU32leD data (cursor + 4 + name_length + 8) } :: acc)
          else .error .InvalidUtf8
    else .ok acc.reverse

/-- src/pf8/src/format.rs `parse_entries`. -/
def parse_entries (data : List Nat) :
    Except Error (List RawEntry × ArchiveFormat) := do
  let format ← validate_magic data
  if data.length < 11 then
    .error (.InvalidFormat "Data too short to parse header")
  else do
    let index_size ← read_u32_le data 3
    let index_count ← read_u32_le data 7
    let indexEnd := min (7 + index_size) data.length
    let entries ← parseLoop data indexEnd index_count 11 []
    if entries.length ≠ index_count then
      .error (.Corrupted ("Index count mismatch. Expected " ++
        toString index_count ++ ", found " ++ toString entries.length))
    else
      .ok (entries, format)

/-! ## Writer (src/pf8/src/writer.rs).  The output file is the byte list
`output`; `Pf8Writer.create` truncates it to empty. -/

/-- `u32::to_le_bytes` (encodes the value mod 2^32). -/
def le32 (n : Nat) : List Nat :=
  [n % 256, n / 256 % 256, n / 65536 % 256, n / 16777216 % 256]

/-- `u64::to_le_bytes` (encodes the value mod 2^64). -/
def le64 (n : Nat) : List Nat :=
  [n % 256, n / 256 % 256, n / 65536 % 256, n / 16777216 % 256,
   n / 4294967296 % 256, n / 1099511627776 % 256,
   n / 281474976710656 % 256, n / 72057594037927936 % 256]

inductive WriterState where
  | Created
  | HeaderWritten
  | WritingData
  | Finalized
deriving DecidableEq, Repr

structure Pf8Writer where
  output : List Nat
  header_data : List Nat
  state : WriterState
  data_start_pos : Nat
  encryption_key : Option (List Nat)
deriving DecidableEq, Repr

/-- src/pf8/src/writer.rs `Pf8Writer::create`. -/
def Pf8Writer.create : Pf8Writer :=
  { output := [], header_data := [], state := .Created,
    data_start_pos := 0, encryption_key := none }

/-- One index record:
`name_length, name, 4 zero bytes, offset, size` (all u32 little-endian). -/
def entryRecord (e : Pf8Entry) (fileOffset : Nat) : List Nat :=
  le32 e.raw.name.length ++ e.raw.name ++ [0, 0, 0, 0]
    ++ le32 fileOffset ++ le32 e.raw.size

/-- The record section together with the `filesize_offsets` values
(`header_data.len() - 4 - 0x0F` after each record; 0x0F is
`format::offsets::FILESIZE_OFFSETS_START`, "offset from faddr 0xf" in the
format comment).  `fileOffset` accumulates `+= entry.size()` in u32. -/
def buildEntryRecords : List Pf8Entry → Nat → Nat → List Nat × List Nat
  | [], _, _ => ([], [])
  | e :: rest, fileOffset, headerLen =>
    let record := entryRecord e fileOffset
    let newLen := headerLen + record.length
    let (recs, offs) :=
      buildEntryRecords rest ((fileOffset + e.raw.size) % 4294967296) newLen
    (record ++ recs, (newLen - 4 - 15) :: offs)

/-- `index_count` as the u32 the writer stores. -/
def indexCountVal (entries : List Pf8Entry) : Nat :=
  entries.length % 4294967296

/-- `fileentry_size`: Σ (name length + 16). -/
def fileentrySize (entries : List Pf8Entry) : Nat :=
  (entries.map (fun e => e.raw.name.length + 16)).sum

/-- `index_size` as the u32 the writer computes:
`4 + fileentry_size + 4 + (index_count + 1) * 8 + 4`. -/
def indexSizeVal (entries : List Pf8Entry) : Nat :=
  (4 + fileentrySize entries + 4 + (indexCountVal entries + 1) * 8 + 4)
    % 4294967296

/-- The first payload position, `index_size + 7` (u32). -/
def dataStartVal (entries : List Pf8Entry) : Nat :=
  (indexSizeVal entries + 7) % 4294967296

/-- The header byte string `write_header` assembles:
magic, index_size, index_count, the records, filesize_count,
filesize_offsets, the 8-zero-byte end marker, and the trailing
filesize_count_offset (= distance of the count field from 0x07). -/
def headerBytes (entries : List Pf8Entry) : List Nat :=
  let pr := buildEntryRecords entries (dataStartVal entries) 11
  let headerPre := PF8_MAGIC ++ le32 (indexSizeVal entries)
    ++ le32 (indexCountVal entries) ++ pr.1
    ++ le32 (indexCountVal entries + 1)
  headerPre ++ (pr.2.map le64).flatten ++ List.replicate 8 0
    ++ le32 (headerPre.length - 4 - 7)

/-- src/pf8/src/writer.rs `Pf8Writer::write_header`: legal only in state
`Created`; assembles the header, appends it to the output, records the
data start position, derives and caches the key, moves to
`HeaderWritten`.  The `generate_key` panic branch is unreachable (the
header is at least 11 bytes); it is mapped to an (unreachable) error. -/
def write_header (w : Pf8Writer) (entries : List Pf8Entry) :
    Except Error Pf8Writer :=
  if w.state ≠ .Created then .error (.InvalidFormat "Header already written")
  else
    let header := headerBytes entries
    match get_index_size header with
    | .error e => .error e
    | .ok isz =>
      match generate_key header isz with
      | none => .error (.Crypto "unreachable: generate_key panicked")
      | some key =>
        .ok { w with
          output := w.output ++ header
          header_data := header
          data_start_pos := w.output.length + header.length
          encryption_key := some key
          state := .HeaderWritten }

/-- The payload transformation performed by
src/pf8/src/writer.rs `write_file_data`: files at most `BUFFER_SIZE`
bytes are read and encrypted whole (offset 0); larger files are
processed in `BUFFER_SIZE` chunks, encrypting each at the entry-local
offset `total_written`.  Encryption applies only when the entry is
encrypted and a key is cached. -/
def writeTransform (key : Option (List Nat)) (useEnc : Bool)
    (data : List Nat) : List Nat :=
  if data.length ≤ BUFFER_SIZE then
    match key with
    | some k => if useEnc then xorAt k 0 data else data
    | none => data
  else
    match key with
    | some k =>
        if useEnc then processChunksXor k 0 (chunksOf BUFFER_SIZE data)
        else data
    | none => data

/-- src/pf8/src/writer.rs `Pf8Writer::write_file_data`: errors in states
`Created` and `Finalized`; reads exactly `entry.size()` bytes from the
source file (an I/O error — modelled up front — if the file is shorter),
XOR-transforms them as required, appends them to the output and moves to
`WritingData`. -/
def write_file_data (w : Pf8Writer) (entry : Pf8Entry) (source : List Nat) :
    Except Error Pf8Writer :=
  if w.state = .Created then
    .error (.InvalidFormat "Header must be written first")
  else if w.state = .Finalized then
    .error (.InvalidFormat "Writer is finalized")
  else if source.length < entry.raw.size then
    .error (.Io "failed to fill whole buffer")
  else
    let data := source.take entry.raw.size
    .ok { w with
      output := w.output ++ writeTransform w.encryption_key entry.encrypted data
      state := .WritingData }

/-- src/pf8/src/writer.rs `Pf8Writer::finalize`: a successful no-op when
already finalized, an error in `Created`, otherwise flushes and moves to
`Finalized`. -/
def finalize (w : Pf8Writer) : Except Error Pf8Writer :=
  if w.state = .Finalized then .ok w
  else if w.state = .Created then .error (.InvalidFormat "No data written")
  else .ok { w with state := .Finalized }

/-! ## Builder (src/pf8/src/builder.rs).  A builder's accumulated
`(source_path, archive_path)` list is embedded as a list of
`(archive_path, source file content)` pairs: the source file is
identified with the bytes `fs::metadata`/`write_file_data` see. -/

/-- One accumulated builder file: archive path (components) and the
content of its source file. -/
abbrev BFile := List (List Nat) × List Nat

/-- src/pf8/src/builder.rs `sorted_indices` + the iteration over them: a
stable sort of the files by archive path (`PathBuf::cmp` =
lexicographic over components, components compared bytewise). -/
def sortedFiles (files : List BFile) : List BFile :=
  List.insertionSort (fun a b => a.1 ≤ b.1) files

/-- The entry-construction loop of `write_to_writer`: per sorted file,
read its size (`InvalidFormat` beyond u32::MAX), build a `Pf8Entry` at
running offset `total_data_size`, accumulate.  See `Pf8Entry.new` for the
pattern default. -/
def buildEntries : List BFile → Nat → Except Error (List (Pf8Entry × List Nat))
  | [], _ => .ok []
  | (p, c) :: rest, total =>
    if c.length > 4294967295 then
      .error (.InvalidFormat "File too large")
    else do
      let tail ← buildEntries rest ((total + c.length) % 4294967296)
      .ok ((Pf8Entry.new p total c.length UNENCRYPTED_FILTER, c) :: tail)

/-- The data-writing loop of `write_to_writer`. -/
def writeAll (w : Pf8Writer) : List (Pf8Entry × List Nat) → Except Error Pf8Writer
  | [] => .ok w
  | (e, c) :: rest => do
    let w' ← write_file_data w e c
    writeAll w' rest

/-- src/pf8/src/builder.rs `Pf8Builder::write_to_writer`: fails on an
empty builder, sorts by archive path, builds entries, writes header,
writes every file's data in order, finalizes. -/
def write_to_writer (files : List BFile) (w : Pf8Writer) :
    Except Error Pf8Writer :=
  if files = [] then .error (.InvalidFormat "No files to archive")
  else
    match buildEntries (sortedFiles files) 0 with
    | .error e => .error e
    | .ok pairs =>
      match write_header w (pairs.map (·.1)) with
      | .error e => .error e
      | .ok w1 =>
        match writeAll w1 pairs with
        | .error e => .error e
        | .ok w2 => finalize w2

/-! ## Reader (src/pf8/src/reader.rs). -/

/-- The payload transformation of the reader's streaming read /
extraction: whole-buffer XOR for files at most `BUFFER_SIZE` bytes,
otherwise per-chunk XOR at the entry-local `bytes_read` offset; an
encrypted entry with no key is a `Crypto` error. -/
def readTransform (key : Option (List Nat)) (enc : Bool) (data : List Nat) :
    Except Error (List Nat) :=
  if data.length ≤ BUFFER_SIZE then
    if enc then
      match key with
      | some k => .ok (xorAt k 0 data)
      | none => .error (.Crypto "File is encrypted but no key provided")
    else .ok data
  else
    if enc then
      match key with
      | some k => .ok (processChunksXor k 0 (chunksOf BUFFER_SIZE data))
      | none => .error (.Crypto "File is encrypted but no key provided")
    else .ok data

structure Pf8Reader where
  file : List Nat
  entries : List Pf8Entry
  encryption_key : Option (List Nat)
  format : ArchiveFormat
deriving Repr

/-- src/pf8/src/reader.rs `Pf8Reader::open_with_unencrypted_patterns`:
reads the 11-byte minimal header, validates the magic, reads the whole
index region, parses it, derives the key (PF8 only; the `generate_key`
panic is unreachable since at least 11 bytes were read) and materialises
entries.  Failed `read_exact` calls are `Io` errors. -/
def Pf8Reader.open (archive : List Nat) (patterns : List (List Nat)) :
    Except Error Pf8Reader :=
  if archive.length < 11 then .error (.Io "failed to fill whole buffer")
  else do
    let header_buffer := archive.take 11
    let _ ← validate_magic header_buffer
    let index_size ← read_u32_le header_buffer 3
    let total_index_size := 7 + index_size
    if archive.length < total_index_size then
      .error (.Io "failed to fill whole buffer")
    else do
      let index_buffer := archive.take total_index_size
      let (raw_entries, format) ← parse_entries index_buffer
      let encryption_key :=
        match format with
        | .Pf8 => generate_key index_buffer index_size
        | .Pf6 => none
      .ok { file := archive
            entries := raw_entries.map
              (fun r => Pf8Entry.from_raw_with_format r patterns format)
            encryption_key := encryption_key
            format := format }

/-! ## Event protocol (src/pf8/src/callbacks.rs) and the progress-driving
operations.  A handler is a state type `S` with one function per hook;
hook calls thread the state explicitly. -/

inductive OperationType where
  | Pack
  | Unpack
deriving DecidableEq, Repr

inductive ControlAction where
  | Continue
  | Abort
deriving DecidableEq, Repr

structure ProgressInfo where
  processed_bytes : Nat
  total_bytes : Option Nat
  processed_files : Nat
  total_files : Option Nat
  current_file : List Nat
deriving DecidableEq, Repr

structure Handler (S : Type) where
  on_started : S → OperationType → S × ControlAction
  on_entry_started : S → List Nat → S × ControlAction
  on_progress : S → ProgressInfo → S × ControlAction
  on_entry_finished : S → List Nat → S × ControlAction
  on_finished : S → S × ControlAction

/-- src/pf8/src/callbacks.rs `NoOpHandler`. -/
def noopHandler : Handler Unit :=
  { on_started := fun s _ => (s, .Continue)
    on_entry_started := fun s _ => (s, .Continue)
    on_progress := fun s _ => (s, .Continue)
    on_entry_finished := fun s _ => (s, .Continue)
    on_finished := fun s => (s, .Continue) }

/-- `entry.path().to_string_lossy()`: components joined with `'/'`. -/
def displayPath (p : List (List Nat)) : List Nat :=
  [47].intercalate p

/-- The chunk loop of `extract_entry_with_progress` (large files): per
chunk, decrypt at the entry-local `bytes_written` offset (`Crypto` error
if encrypted without key), write, dispatch `on_progress` (`Cancelled` on
Abort; the chunk already written stays on disk).  Returns the new handler
state, the bytes written to the output file, and the result. -/
def extractChunksLoop {S : Type} (key : Option (List Nat)) (enc : Bool)
    (h : Handler S) (name : List Nat) (pf tf tbp : Nat) (tb : Nat) :
    List (List Nat) → Nat → S → S × List Nat × Except Error Nat
  | [], bytesWritten, s => (s, [], .ok bytesWritten)
  | c :: cs, bytesWritten, s =>
    if enc then
      match key with
      | none => (s, [], .error (.Crypto "File is encrypted but no key provided"))
      | some k =>
        let out := xorAt k bytesWritten c
        let info : ProgressInfo :=
          { processed_bytes := tbp + bytesWritten + c.length
            total_bytes := some tb
            processed_files := pf
            total_files := some tf
            current_file := name }
        let (s', act) := h.on_progress s info
        if act = .Abort then (s', out, .error .Cancelled)
        else
          let (s'', rest, res) :=
            extractChunksLoop key enc h name pf tf tbp tb cs
              (bytesWritten + c.length) s'
          (s'', out ++ rest, res)
    else
      let info : ProgressInfo :=
        { processed_bytes := tbp + bytesWritten + c.length
          total_bytes := some tb
          processed_files := pf
          total_files := some tf
          current_file := name }
      let (s', act) := h.on_progress s info
      if act = .Abort then (s', c, .error .Cancelled)
      else
        let (s'', rest, res) :=
          extractChunksLoop key enc h name pf tf tbp tb cs
            (bytesWritten + c.length) s'
        (s'', c ++ rest, res)

/-- src/pf8/src/reader.rs `extract_entry_with_progress`: creates the
output file, reads `size` bytes at `offset` (an `Io` error past the
archive end), decrypts and writes — whole for small files with one
`on_progress`, chunked with per-chunk `on_progress` otherwise.  Returns
the handler state, the bytes written into the created file, and the
result (bytes written, `Cancelled`, `Crypto` or `Io`). -/
def extract_entry_with_progress {S : Type} (archive : List Nat)
    (key : Option (List Nat)) (entry : Pf8Entry) (pf tf tbp tb : Nat)
    (h : Handler S) (s : S) : S × List Nat × Except Error Nat :=
  let file_size := entry.raw.size
  let start := entry.raw.offset
  if archive.length < start + file_size then
    (s, [], .error (.Io "failed to fill whole buffer"))
  else
    let payload := (archive.drop start).take file_size
    let name := displayPath entry.path
    if file_size ≤ BUFFER_SIZE then
      if entry.encrypted then
        match key with
        | none => (s, [], .error (.Crypto "File is encrypted but no key provided"))
        | some k =>
          let data := xorAt k 0 payload
          let info : ProgressInfo :=
            { processed_bytes := tbp + file_size, total_bytes := some tb
              processed_files := pf, total_files := some tf
              current_file := name }
          let (s', act) := h.on_progress s info
          if act = .Abort then (s', data, .error .Cancelled)
          else (s', data, .ok file_size)
      else
        let info : ProgressInfo :=
          { processed_bytes := tbp + file_size, total_bytes := some tb
            processed_files := pf, total_files := some tf
            current_file := name }
        let (s', act) := h.on_progress s info
        if act = .Abort then (s', payload, .error .Cancelled)
        else (s', payload, .ok file_size)
    else
      extractChunksLoop key entry.encrypted h name pf tf tbp tb
        (chunksOf BUFFER_SIZE payload) 0 s

/-- The entry loop of `extract_all_with_progress`.  The output directory
is modelled as the list of `(path, bytes written)` files created, in
creation order.  An aborting `on_entry_started` cancels before the
entry's output file is created. -/
def extractAllLoop {S : Type} (archive : List Nat) (key : Option (List Nat))
    (h : Handler S) (tb : Nat) (tf : Nat) :
    List Pf8Entry → Nat → Nat → S →
    S × List (List (List Nat) × List Nat) × Except Error Unit
  | [], _, _, s => ((h.on_finished s).1, [], .ok ())
  | e :: rest, idx, tbp, s =>
      let hsa := h.on_entry_started s (displayPath e.path)
      if hsa.2 = .Abort then (hsa.1, [], .error .Cancelled)
      else
        let her :=
          extract_entry_with_progress archive key e (idx + 1) tf tbp tb h hsa.1
        match her.2.2 with
        | .error err => (her.1, [(e.path, her.2.1)], .error err)
        | .ok bytes =>
          let hef := h.on_entry_finished her.1 (displayPath e.path)
          if hef.2 = .Abort then (hef.1, [(e.path, her.2.1)], .error .Cancelled)
          else
            let tail :=
              extractAllLoop archive key h tb tf rest (idx + 1) (tbp + bytes)
                hef.1
            (tail.1, (e.path, her.2.1) :: tail.2.1, tail.2.2)

/-- src/pf8/src/reader.rs `Pf8Reader::extract_all_with_progress`.
Returns the final handler state, the output files created, and the
result. -/
def extract_all_with_progress {S : Type} (r : Pf8Reader) (h : Handler S)
    (s : S) : S × List (List (List Nat) × List Nat) × Except Error Unit :=
  let tb := (r.entries.map (·.raw.size)).sum
  let tf := r.entries.length
  let hs := h.on_started s .Unpack
  if hs.2 = .Abort then (hs.1, [], .error .Cancelled)
  else extractAllLoop r.file r.encryption_key h tb tf r.entries 0 0 hs.1

/-- src/pf8/src/reader.rs `Pf8Reader::extract_all`: extraction with the
no-op handler. -/
def extract_all (r : Pf8Reader) :
    List (List (List Nat) × List Nat) × Except Error Unit :=
  (extract_all_with_progress r noopHandler ()).2

/-- The data loop of src/pf8/src/builder.rs
`write_to_writer_with_progress`: `on_entry_started` / write /
`on_entry_finished` per entry, cancelling on Abort.  On an error from
`write_file_data` the writer value from before the failing call is
returned (faithful for the state-machine errors exercised here). -/
def writeAllProgress {S : Type} (h : Handler S) :
    List (Pf8Entry × List Nat) → Pf8Writer → S →
    S × Pf8Writer × Except Error Unit
  | [], w, s => (s, w, .ok ())
  | (e, c) :: rest, w, s =>
    let hsa := h.on_entry_started s (displayPath e.path)
    if hsa.2 = .Abort then (hsa.1, w, .error .Cancelled)
    else
      match write_file_data w e c with
      | .error err => (hsa.1, w, .error err)
      | .ok w' =>
        let hef := h.on_entry_finished hsa.1 (displayPath e.path)
        if hef.2 = .Abort then (hef.1, w', .error .Cancelled)
        else writeAllProgress h rest w' hef.1

/-- src/pf8/src/builder.rs `Pf8Builder::write_to_writer_with_progress`.
Returns the final handler state, the writer (with whatever output was
committed), and the result. -/
def write_to_writer_with_progress {S : Type} (files : List BFile)
    (w : Pf8Writer) (h : Handler S) (s : S) :
    S × Pf8Writer × Except Error Unit :=
  if files = [] then (s, w, .error (.InvalidFormat "No files to archive"))
  else
    let hs := h.on_started s .Pack
    if hs.2 = .Abort then (hs.1, w, .error .Cancelled)
    else
      match buildEntries (sortedFiles files) 0 with
      | .error e => (hs.1, w, .error e)
      | .ok pairs =>
        match write_header w (pairs.map (·.1)) with
        | .error e => (hs.1, w, .error e)
        | .ok w1 =>
          let wp := writeAllProgress h pairs w1 hs.1
          match wp.2.2 with
          | .error e => (wp.1, wp.2.1, .error e)
          | .ok _ =>
            match finalize wp.2.1 with
            | .error e => (wp.1, wp.2.1, .error e)
            | .ok w3 => ((h.on_finished wp.1).1, w3, .ok ())

/-! ## Handler-free characterisation of single-entry extraction, used to
relate progress-driven runs to the plain `extract_all`. -/

/-- The (bytes written, result) of the chunk loop, independent of any
handler: what `extractChunksLoop` computes when every `on_progress`
continues. -/
def chunksPure (key : Option (List Nat)) (enc : Bool) :
    List (List Nat) → Nat → List Nat × Except Error Nat
  | [], bw => ([], .ok bw)
  | c :: cs, bw =>
    if enc then
      match key with
      | none => ([], .error (.Crypto "File is encrypted but no key provided"))
      | some k =>
        let (rest, res) := chunksPure key enc cs (bw + c.length)
        (xorAt k bw c ++ rest, res)
    else
      let (rest, res) := chunksPure key enc cs (bw + c.length)
      (c ++ rest, res)

/-- The (bytes written, result) of extracting one entry when no hook
aborts. -/
def entryPayloadResult (archive : List Nat) (key : Option (List Nat))
    (e : Pf8Entry) : List Nat × Except Error Nat :=
  if archive.length < e.raw.offset + e.raw.size then
    ([], .error (.Io "failed to fill whole buffer"))
  else
    let payload := (archive.drop e.raw.offset).take e.raw.size
    if e.raw.size ≤ BUFFER_SIZE then
      if e.encrypted then
        match key with
        | none => ([], .error (.Crypto "File is encrypted but no key provided"))
        | some k => (xorAt k 0 payload, .ok e.raw.size)
      else (payload, .ok e.raw.size)
    else
      let (written, res) := chunksPure key e.encrypted (chunksOf BUFFER_SIZE payload) 0
      (written, res)

theorem extractChunksLoop_progress_const {S : Type} (key : Option (List Nat))
    (enc : Bool) (h : Handler S)
    (hp : ∀ s i, h.on_progress s i = (s, .Continue))
    (name : List Nat) (pf tf tbp tb : Nat) (cs : List (List Nat)) (bw : Nat)
    (s : S) :
    extractChunksLoop key enc h name pf tf tbp tb cs bw s
      = (s, chunksPure key enc cs bw) := by
  induction cs generalizing bw s with
  | nil => rfl
  | cons c cs ih =>
      unfold extractChunksLoop chunksPure
      by_cases henc : enc
      · simp only [if_pos henc]
        cases key with
        | none => rfl
        | some k =>
            simp only [hp, ih]
            rfl
      · simp only [if_neg henc, hp, ih]
        rfl

theorem extract_entry_progress_const {S : Type} (archive : List Nat)
    (key : Option (List Nat)) (e : Pf8Entry) (pf tf tbp tb : Nat)
    (h : Handler S) (hp : ∀ s i, h.on_progress s i = (s, .Continue)) (s : S) :
    extract_entry_with_progress archive key e pf tf tbp tb h s
      = (s, entryPayloadResult archive key e) := by
  unfold extract_entry_with_progress entryPayloadResult
  by_cases hb : archive.length < e.raw.offset + e.raw.size
  · rw [if_pos hb, if_pos hb]
  · rw [if_neg hb, if_neg hb]
    by_cases hsz : e.raw.size ≤ BUFFER_SIZE
    · rw [if_pos hsz, if_pos hsz]
      by_cases henc : e.encrypted
      · simp only [if_pos henc]
        cases key with
        | none => rfl
        | some k => simp only [hp]; rfl
      · simp only [if_neg henc, hp]; rfl
    · rw [if_neg hsz, if_neg hsz]
      rw [extractChunksLoop_progress_const key e.encrypted h hp]

/-- The (output files, result) of the extraction loop when no hook
aborts. -/
def extractAllPure (archive : List Nat) (key : Option (List Nat)) :
    List Pf8Entry → List (List (List Nat) × List Nat) × Except Error Unit
  | [] => ([], .ok ())
  | e :: rest =>
    let (written, res) := entryPayloadResult archive key e
    match res with
    | .error err => ([(e.path, written)], .error err)
    | .ok _ =>
      let (outs, r) := extractAllPure archive key rest
      ((e.path, written) :: outs, r)

theorem extractAllLoop_pure_of_const {S : Type} (archive : List Nat)
    (key : Option (List Nat)) (h : Handler S) (tb tf : Nat)
    (h1 : ∀ s n, h.on_entry_started s n = (s, .Continue))
    (hp : ∀ s i, h.on_progress s i = (s, .Continue))
    (h2 : ∀ s n, h.on_entry_finished s n = (s, .Continue))
    (es : List Pf8Entry) : ∀ (idx tbp : Nat) (s : S),
    (extractAllLoop archive key h tb tf es idx tbp s).2
      = extractAllPure archive key es := by
  induction es with
  | nil => intro idx tbp s; rfl
  | cons e rest ih =>
      intro idx tbp s
      simp only [extractAllLoop, extractAllPure]
      rw [h1, extract_entry_progress_const archive key e (idx + 1) tf tbp tb h hp]
      simp only []
      rcases hres : entryPayloadResult archive key e with ⟨written, err | bytes⟩
      · rfl
      · rw [h2]
        simp only []
        have := ih (idx + 1) (tbp + bytes) s
        rcases hloop : extractAllLoop archive key h tb tf rest (idx + 1)
            (tbp + bytes) s with ⟨s4, outs, r⟩
        rw [hloop] at this
        simp only [] at this
        rw [this]
        simp

/-- `extract_all` (the no-op handler run) computes `extractAllPure`. -/
theorem extract_all_eq_pure (r : Pf8Reader) :
    extract_all r = extractAllPure r.file r.encryption_key r.entries := by
  unfold extract_all extract_all_with_progress
  exact extractAllLoop_pure_of_const r.file r.encryption_key noopHandler _ _
    (fun _ _ => rfl) (fun _ _ => rfl) (fun _ _ => rfl) r.entries 0 0 ()

/-- A handler that counts `on_entry_started` calls and aborts on the
`k`-th one, continuing everywhere else. -/
def countAbortHandler (k : Nat) : Handler Nat :=
  { on_started := fun s _ => (s, .Continue)
    on_entry_started := fun s _ => (s + 1, if s + 1 = k then .Abort else .Continue)
    on_progress := fun s _ => (s, .Continue)
    on_entry_finished := fun s _ => (s, .Continue)
    on_finished := fun s => (s, .Continue) }

/-- A handler that aborts only from `on_finished`. -/
def abortOnFinishedHandler : Handler Unit :=
  { on_started := fun s _ => (s, .Continue)
    on_entry_started := fun s _ => (s, .Continue)
    on_progress := fun s _ => (s, .Continue)
    on_entry_finished := fun s _ => (s, .Continue)
    on_finished := fun s => (s, .Abort) }

/-- A handler that aborts from `on_started`. -/
def abortOnStartedHandler : Handler Unit :=
  { on_started := fun s _ => (s, .Abort)
    on_entry_started := fun s _ => (s, .Continue)
    on_progress := fun s _ => (s, .Continue)
    on_entry_finished := fun s _ => (s, .Continue)
    on_finished := fun s => (s, .Continue) }

theorem countAbort_entry_started (k s : Nat) (n : List Nat) :
    (countAbortHandler k).on_entry_started s n
      = (s + 1, if s + 1 = k then ControlAction.Abort else .Continue) := rfl

theorem countAbort_entry_finished (k s : Nat) (n : List Nat) :
    (countAbortHandler k).on_entry_finished s n = (s, .Continue) := rfl

theorem extractAllLoop_countAbort (archive : List Nat)
    (key : Option (List Nat)) (tb tf : Nat) (k : Nat) (es : List Pf8Entry) :
    ∀ (idx tbp s : Nat), s < k →
    (extractAllPure archive key es).2 = .ok () →
    (k ≤ s + es.length →
      extractAllLoop archive key (countAbortHandler k) tb tf es idx tbp s
        = (k, (extractAllPure archive key es).1.take (k - s - 1),
            .error .Cancelled))
    ∧ (s + es.length < k →
      extractAllLoop archive key (countAbortHandler k) tb tf es idx tbp s
        = (s + es.length, (extractAllPure archive key es).1, .ok ())) := by
  induction es with
  | nil =>
      intro idx tbp s hs _
      exact ⟨fun hk => by simp at hk; omega,
        fun _ => by simp [extractAllLoop, extractAllPure, countAbortHandler]⟩
  | cons e rest ih =>
      intro idx tbp s hs hsucc
      simp only [extractAllLoop, countAbort_entry_started, countAbort_entry_finished]
      rw [extract_entry_progress_const archive key e (idx + 1) tf tbp tb
        (countAbortHandler k) (fun _ _ => rfl)]
      simp only []
      by_cases hk : s + 1 = k
      · rw [if_pos hk, if_pos rfl]
        constructor
        · intro _
          have h0 : k - s - 1 = 0 := by omega
          rw [h0, List.take_zero, hk]
        · intro hc
          simp only [List.length_cons] at hc
          omega
      · rw [if_neg hk]
        rw [if_neg (show ControlAction.Continue ≠ ControlAction.Abort from by decide)]
        simp only [extractAllPure] at hsucc ⊢
        rcases hres : entryPayloadResult archive key e with ⟨written, err | bytes⟩
        · rw [hres] at hsucc
          simp at hsucc
        · rw [hres] at hsucc
          simp only [] at hsucc ⊢
          rw [if_neg (show ControlAction.Continue ≠ ControlAction.Abort from by decide)]
          have hrest : (extractAllPure archive key rest).2 = .ok () := hsucc
          have hih := ih (idx + 1) (tbp + bytes) (s + 1) (by omega) hrest
          constructor
          · intro hkle
            have h1 := hih.1 (by simp only [List.length_cons] at hkle; omega)
            rw [h1]
            simp only []
            have htk : (k - s - 1) = (k - (s + 1) - 1) + 1 := by omega
            rw [htk, List.take_succ_cons]
          · intro hklt
            have h2 := hih.2 (by simp only [List.length_cons] at hklt; omega)
            rw [h2]
            simp only [List.length_cons]
            rw [show s + (rest.length + 1) = s + 1 + rest.length from by omega]

theorem buildEntries_length (fs : List BFile) :
    ∀ (t : Nat) (ps : List (Pf8Entry × List Nat)),
    buildEntries fs t = .ok ps → ps.length = fs.length := by
  induction fs with
  | nil =>
      intro t ps h
      cases h
      rfl
  | cons f rest ih =>
      intro t ps h
      rcases f with ⟨p, c⟩
      unfold buildEntries at h
      by_cases hc : c.length > 4294967295
      · rw [if_pos hc] at h
        cases h
      · rw [if_neg hc] at h
        cases htl : buildEntries rest ((t + c.length) % 4294967296) with
        | error e =>
            rw [htl] at h
            cases h
        | ok tail =>
            rw [htl] at h
            cases h
            simp [ih _ tail htl]

theorem writeAllProgress_countAbort (k : Nat)
    (pairs : List (Pf8Entry × List Nat)) :
    ∀ (w wf : Pf8Writer) (s : Nat), s < k →
    writeAll w pairs = .ok wf →
    (k ≤ s + pairs.length →
      ∃ w', writeAllProgress (countAbortHandler k) pairs w s
          = (k, w', .error .Cancelled)
        ∧ writeAll w (pairs.take (k - s - 1)) = .ok w')
    ∧ (s + pairs.length < k →
      writeAllProgress (countAbortHandler k) pairs w s
        = (s + pairs.length, wf, .ok ())) := by
  induction pairs with
  | nil =>
      intro w wf s hs hok
      cases hok
      exact ⟨fun hk => by simp at hk; omega, fun _ => by simp [writeAllProgress]⟩
  | cons pc rest ih =>
      intro w wf s hs hok
      rcases pc with ⟨e, c⟩
      unfold writeAll at hok
      cases hwd : write_file_data w e c with
      | error err =>
          rw [hwd] at hok
          cases hok
      | ok w1 =>
          rw [hwd] at hok
          simp only [writeAllProgress, countAbort_entry_started,
            countAbort_entry_finished]
          by_cases hk : s + 1 = k
          · rw [if_pos hk, if_pos rfl]
            constructor
            · intro _
              refine ⟨w, ?_, ?_⟩
              · rw [hk]
              · have h0 : k - s - 1 = 0 := by omega
                rw [h0, List.take_zero]
                rfl
            · intro hc
              simp only [List.length_cons] at hc
              omega
          · rw [if_neg hk,
              if_neg (show ControlAction.Continue ≠ ControlAction.Abort from
                by decide)]
            rw [hwd]
            simp only []
            rw [if_neg (show ControlAction.Continue ≠ ControlAction.Abort from
              by decide)]
            have hih := ih w1 wf (s + 1) (by omega) hok
            constructor
            · intro hkle
              obtain ⟨w', hw1, hw2⟩ := hih.1
                (by simp only [List.length_cons] at hkle; omega)
              refine ⟨w', hw1, ?_⟩
              have htk : (k - s - 1) = (k - (s + 1) - 1) + 1 := by omega
              rw [htk, List.take_succ_cons]
              unfold writeAll
              rw [hwd]
              exact hw2
            · intro hklt
              simp only [List.length_cons] at hklt ⊢
              rw [hih.2 (by omega)]
              rw [show s + (rest.length + 1) = s + 1 + rest.length from by omega]

theorem countAbort_started (k s : Nat) (op : OperationType) :
    (countAbortHandler k).on_started s op = (s, .Continue) := rfl

/-- A handler that aborts from every `on_progress` call, continuing
everywhere else. -/
def abortOnProgressHandler : Handler Unit :=
  { on_started := fun s _ => (s, .Continue)
    on_entry_started := fun s _ => (s, .Continue)
    on_progress := fun s _ => (s, .Abort)
    on_entry_finished := fun s _ => (s, .Continue)
    on_finished := fun s => (s, .Continue) }

/-- A handler that counts `on_entry_finished` calls and aborts on the
`k`-th one, continuing everywhere else. -/
def entryFinAbortHandler (k : Nat) : Handler Nat :=
  { on_started := fun s _ => (s, .Continue)
    on_entry_started := fun s _ => (s, .Continue)
    on_progress := fun s _ => (s, .Continue)
    on_entry_finished :=
      fun s _ => (s + 1, if s + 1 = k then .Abort else .Continue)
    on_finished := fun s => (s, .Continue) }

theorem abortOnProgress_entry_started (s : Unit) (n : List Nat) :
    abortOnProgressHandler.on_entry_started s n = ((), .Continue) := rfl

theorem entryFinAbort_entry_started (k s : Nat) (n : List Nat) :
    (entryFinAbortHandler k).on_entry_started s n = (s, .Continue) := rfl

theorem entryFinAbort_entry_finished (k s : Nat) (n : List Nat) :
    (entryFinAbortHandler k).on_entry_finished s n
      = (s + 1, if s + 1 = k then ControlAction.Abort else .Continue) := rfl

theorem entryFinAbort_started (k s : Nat) (op : OperationType) :
    (entryFinAbortHandler k).on_started s op = (s, .Continue) := rfl

theorem abortOnFinished_started (op : OperationType) :
    abortOnFinishedHandler.on_started () op = ((), .Continue) := rfl

theorem chunksOf_cons_eq (n : Nat) (hn : 0 < n) (a : α) (l : List α) :
    chunksOf n (a :: l) = (a :: l).take n :: chunksOf n ((a :: l).drop n) := by
  cases n with
  | zero => exact absurd hn (by omega)
  | succ m =>
      simp [chunksOf, List.take_succ_cons, List.drop_succ_cons,
        Nat.add_sub_cancel]

/-- A handler aborting from every `on_progress`: extracting one entry
commits exactly the first chunk (the whole payload when it is at most
`BUFFER_SIZE` bytes) and returns `Cancelled`. -/
theorem extract_entry_abortOnProgress (archive : List Nat) (k0 : List Nat)
    (e : Pf8Entry) (pf tf tbp tb : Nat)
    (hb : e.raw.offset + e.raw.size ≤ archive.length) :
    extract_entry_with_progress archive (some k0) e pf tf tbp tb
        abortOnProgressHandler ()
      = ((), (if e.encrypted then
            xorAt k0 0 (((archive.drop e.raw.offset).take e.raw.size).take
              BUFFER_SIZE)
          else ((archive.drop e.raw.offset).take e.raw.size).take
            BUFFER_SIZE),
         .error .Cancelled) := by
  have hplen : ((archive.drop e.raw.offset).take e.raw.size).length
      = e.raw.size := by
    simp only [List.length_take, List.length_drop]
    omega
  unfold extract_entry_with_progress
  rw [if_neg (by omega)]
  by_cases hsz : e.raw.size ≤ BUFFER_SIZE
  · rw [if_pos hsz]
    rw [show ((archive.drop e.raw.offset).take e.raw.size).take BUFFER_SIZE
        = (archive.drop e.raw.offset).take e.raw.size
      from List.take_of_length_le (by omega)]
    by_cases henc : e.encrypted
    · simp [henc, abortOnProgressHandler]
    · simp [henc, abortOnProgressHandler]
  · rw [if_neg hsz]
    rcases hpay : (archive.drop e.raw.offset).take e.raw.size with _ | ⟨a, l⟩
    · exfalso
      rw [hpay] at hplen
      simp only [List.length_nil] at hplen
      omega
    · rw [chunksOf_cons_eq BUFFER_SIZE (by decide) a l]
      simp only [extractChunksLoop]
      by_cases henc : e.encrypted
      · simp [henc, abortOnProgressHandler]
      · simp [henc, abortOnProgressHandler]

/-- The extraction loop under the `k`-th-`on_entry_finished` abort: on a
loop that would succeed, reaching the `k`-th finished entry cancels with
exactly the first `k - s` output files created; never reaching it leaves
the run unchanged. -/
theorem extractAllLoop_entryFinAbort (archive : List Nat)
    (key : Option (List Nat)) (tb tf : Nat) (k : Nat) (es : List Pf8Entry) :
    ∀ (idx tbp s : Nat), s < k →
    (extractAllPure archive key es).2 = .ok () →
    (k ≤ s + es.length →
      extractAllLoop archive key (entryFinAbortHandler k) tb tf es idx tbp s
        = (k, (extractAllPure archive key es).1.take (k - s),
            .error .Cancelled))
    ∧ (s + es.length < k →
      extractAllLoop archive key (entryFinAbortHandler k) tb tf es idx tbp s
        = (s + es.length, (extractAllPure archive key es).1, .ok ())) := by
  induction es with
  | nil =>
      intro idx tbp s hs _
      exact ⟨fun hk => by simp at hk; omega,
        fun _ => by simp [extractAllLoop, extractAllPure, entryFinAbortHandler]⟩
  | cons e rest ih =>
      intro idx tbp s hs hsucc
      simp only [extractAllLoop, entryFinAbort_entry_started,
        entryFinAbort_entry_finished]
      rw [if_neg (show ¬((s, ControlAction.Continue).2 = ControlAction.Abort)
        from by simp)]
      rw [extract_entry_progress_const archive key e (idx + 1) tf tbp tb
        (entryFinAbortHandler k) (fun _ _ => rfl)]
      simp only []
      simp only [extractAllPure] at hsucc ⊢
      rcases hres : entryPayloadResult archive key e with ⟨written, err | bytes⟩
      · rw [hres] at hsucc
        simp at hsucc
      · rw [hres] at hsucc
        simp only [] at hsucc ⊢
        by_cases hk : s + 1 = k
        · rw [if_pos hk, if_pos rfl]
          constructor
          · intro _
            have h1 : k - s = 1 := by omega
            rw [h1, hk]
            simp
          · intro hc
            simp only [List.length_cons] at hc
            omega
        · rw [if_neg hk,
            if_neg (show ControlAction.Continue ≠ ControlAction.Abort from
              by decide)]
          have hrest : (extractAllPure archive key rest).2 = .ok () := hsucc
          have hih := ih (idx + 1) (tbp + bytes) (s + 1) (by omega) hrest
          constructor
          · intro hkle
            have h1 := hih.1 (by simp only [List.length_cons] at hkle; omega)
            rw [h1]
            simp only []
            have htk : (k - s) = (k - (s + 1)) + 1 := by omega
            rw [htk, List.take_succ_cons]
          · intro hklt
            have h2 := hih.2 (by simp only [List.length_cons] at hklt; omega)
            rw [h2]
            simp only [List.length_cons]
            rw [show s + (rest.length + 1) = s + 1 + rest.length from by omega]

/-- The writer data loop under `abortOnFinishedHandler`: its entry hooks
all continue, so a successful `writeAll` run is reproduced verbatim. -/
theorem writeAllProgress_finAbort (pairs : List (Pf8Entry × List Nat)) :
    ∀ (w wf : Pf8Writer), writeAll w pairs = .ok wf →
    writeAllProgress abortOnFinishedHandler pairs w () = ((), wf, .ok ()) := by
  induction pairs with
  | nil =>
      intro w wf hok
      cases hok
      rfl
  | cons pc rest ih =>
      intro w wf hok
      rcases pc with ⟨e, c⟩
      unfold writeAll at hok
      cases hwd : write_file_data w e c with
      | error err =>
          rw [hwd] at hok
          cases hok
      | ok w1 =>
          rw [hwd] at hok
          simp only [writeAllProgress]
          rw [if_neg (show ¬((abortOnFinishedHandler.on_entry_started ()
            (displayPath e.path)).2 = ControlAction.Abort) from
            by simp [abortOnFinishedHandler])]
          rw [hwd]
          simp only []
          rw [if_neg (show ¬((abortOnFinishedHandler.on_entry_finished ()
            (displayPath e.path)).2 = ControlAction.Abort) from
            by simp [abortOnFinishedHandler])]
          exact ih w1 wf hok

/-- The writer data loop under the `k`-th-`on_entry_finished` abort: on a
run that would succeed, the `k`-th finished entry cancels with exactly
the first `k - s` entries written; never reaching it leaves the run
unchanged. -/
theorem writeAllProgress_entryFinAbort (k : Nat)
    (pairs : List (Pf8Entry × List Nat)) :
    ∀ (w wf : Pf8Writer) (s : Nat), s < k →
    writeAll w pairs = .ok wf →
    (k ≤ s + pairs.length →
      ∃ w', writeAllProgress (entryFinAbortHandler k) pairs w s
          = (k, w', .error .Cancelled)
        ∧ writeAll w (pairs.take (k - s)) = .ok w')
    ∧ (s + pairs.length < k →
      writeAllProgress (entryFinAbortHandler k) pairs w s
        = (s + pairs.length, wf, .ok ())) := by
  induction pairs with
  | nil =>
      intro w wf s hs hok
      cases hok
      exact ⟨fun hk => by simp at hk; omega, fun _ => by simp [writeAllProgress]⟩
  | cons pc rest ih =>
      intro w wf s hs hok
      rcases pc with ⟨e, c⟩
      unfold writeAll at hok
      cases hwd : write_file_data w e c with
      | error err =>
          rw [hwd] at hok
          cases hok
      | ok w1 =>
          rw [hwd] at hok
          simp only [writeAllProgress, entryFinAbort_entry_started,
            entryFinAbort_entry_finished]
          rw [if_neg (show ¬((s, ControlAction.Continue).2
            = ControlAction.Abort) from by simp)]
          rw [hwd]
          simp only []
          by_cases hk : s + 1 = k
          · rw [if_pos hk, if_pos rfl]
            constructor
            · intro _
              refine ⟨w1, by rw [hk], ?_⟩
              have h1 : k - s = 1 := by omega
              rw [h1]
              show writeAll w [(e, c)] = .ok w1
              unfold writeAll
              rw [hwd]
              rfl
            · intro hc
              simp only [List.length_cons] at hc
              omega
          · rw [if_neg hk,
              if_neg (show ControlAction.Continue ≠ ControlAction.Abort from
                by decide)]
            have hih := ih w1 wf (s + 1) (by omega) hok
            constructor
            · intro hkle
              obtain ⟨w', hw1, hw2⟩ := hih.1
                (by simp only [List.length_cons] at hkle; omega)
              refine ⟨w', hw1, ?_⟩
              have htk : (k - s) = (k - (s + 1)) + 1 := by omega
              rw [htk, List.take_succ_cons]
              unfold writeAll
              rw [hwd]
              exact hw2
            · intro hklt
              simp only [List.length_cons] at hklt ⊢
              rw [hih.2 (by omega)]
              rw [show s + (rest.length + 1) = s + 1 + rest.length from by omega]

/-- C9: cancellation.  (1) On a reader whose plain `extract_all`
succeeds with output files `outs`, a handler that returns Abort on the
`k`-th `on_entry_started` makes `extract_all_with_progress` return
`Cancelled` with exactly the first `k-1` entries fully extracted and the
`k`-th entry's output file never created (for `k = 2`: exactly one
entry).  (2) `on_finished`'s return value is ignored: a handler aborting
only there still yields the no-op-handler result.  (3) Abort from
`on_started` cancels before any entry.  (4) On the writer side, with a
successful `write_to_writer` run, abort on the `k`-th `on_entry_started`
makes `write_to_writer_with_progress` return `Cancelled` with exactly
the first `k-1` entries' payloads written after the header.  (5) Abort
from `on_progress`: extraction cancels during the first entry, with
exactly its first chunk (the whole payload when at most `BUFFER_SIZE`
bytes) committed to its output file and no later chunk or entry touched.
(6) Abort on the `k`-th `on_entry_finished` cancels with exactly the
first `k` entries extracted and the `k+1`-th entry's output file never
created.  (7) On the writer side, abort from `on_started` cancels before
anything is written.  (8) The writer ignores `on_finished`'s value: a
handler aborting only there reproduces the plain `write_to_writer`
result.  (9) Writer-side abort on the `k`-th `on_entry_finished` cancels
with exactly the first `k` entries' payloads written after the header. -/
theorem c9_cancellation :
    (∀ (r : Pf8Reader) (outs : List (List (List Nat) × List Nat)) (k : Nat),
      extract_all r = (outs, .ok ()) → 1 ≤ k → k ≤ r.entries.length →
      extract_all_with_progress r (countAbortHandler k) 0
        = (k, outs.take (k - 1), .error .Cancelled))
    ∧ (∀ (r : Pf8Reader),
      (extract_all_with_progress r abortOnFinishedHandler ()).2 = extract_all r)
    ∧ (∀ (r : Pf8Reader),
      extract_all_with_progress r abortOnStartedHandler ()
        = ((), [], .error .Cancelled))
    ∧ (∀ (files : List BFile) (w : Pf8Writer) (k : Nat),
      files ≠ [] → (write_to_writer files w).isOk = true →
      1 ≤ k → k ≤ files.length →
      ∃ w' pairs w1,
        write_to_writer_with_progress files w (countAbortHandler k) 0
          = (k, w', .error .Cancelled)
        ∧ buildEntries (sortedFiles files) 0 = .ok pairs
        ∧ write_header w (pairs.map (·.1)) = .ok w1
        ∧ writeAll w1 (pairs.take (k - 1)) = .ok w')
    ∧ (∀ (r : Pf8Reader) (e : Pf8Entry) (rest : List Pf8Entry) (k0 : List Nat),
      r.entries = e :: rest →
      e.raw.offset + e.raw.size ≤ r.file.length →
      r.encryption_key = some k0 →
      extract_all_with_progress r abortOnProgressHandler ()
        = ((), [(e.path,
            if e.encrypted then
              xorAt k0 0 (((r.file.drop e.raw.offset).take e.raw.size).take
                BUFFER_SIZE)
            else ((r.file.drop e.raw.offset).take e.raw.size).take
              BUFFER_SIZE)],
           .error .Cancelled))
    ∧ (∀ (r : Pf8Reader) (outs : List (List (List Nat) × List Nat)) (k : Nat),
      extract_all r = (outs, .ok ()) → 1 ≤ k → k ≤ r.entries.length →
      extract_all_with_progress r (entryFinAbortHandler k) 0
        = (k, outs.take k, .error .Cancelled))
    ∧ (∀ (files : List BFile) (w : Pf8Writer), files ≠ [] →
      write_to_writer_with_progress files w abortOnStartedHandler ()
        = ((), w, .error .Cancelled))
    ∧ (∀ (files : List BFile) (w wf : Pf8Writer),
      write_to_writer files w = .ok wf →
      write_to_writer_with_progress files w abortOnFinishedHandler ()
        = ((), wf, .ok ()))
    ∧ (∀ (files : List BFile) (w : Pf8Writer) (k : Nat),
      files ≠ [] → (write_to_writer files w).isOk = true →
      1 ≤ k → k ≤ files.length →
      ∃ w' pairs w1,
        write_to_writer_with_progress files w (entryFinAbortHandler k) 0
          = (k, w', .error .Cancelled)
        ∧ buildEntries (sortedFiles files) 0 = .ok pairs
        ∧ write_header w (pairs.map (·.1)) = .ok w1
        ∧ writeAll w1 (pairs.take k) = .ok w') := by
  refine ⟨?_, ?_, ?_, ?_, ?_, ?_, ?_, ?_, ?_⟩
  · intro r outs k hext hk1 hk2
    have hpure : extractAllPure r.file r.encryption_key r.entries
        = (outs, .ok ()) := by
      rw [← extract_all_eq_pure]; exact hext
    unfold extract_all_with_progress
    simp only [countAbort_started]
    rw [if_neg (show ¬((0, ControlAction.Continue).2 = ControlAction.Abort)
      from by decide)]
    have := (extractAllLoop_countAbort r.file r.encryption_key
        ((r.entries.map (·.raw.size)).sum) r.entries.length k r.entries 0 0 0
        (by omega) (by rw [hpure])).1 (by omega)
    rw [hpure] at this
    simp only [] at this
    rw [show k - 1 = k - 0 - 1 from by omega]
    exact this
  · intro r
    unfold extract_all_with_progress
    rw [if_neg (show ¬((abortOnFinishedHandler.on_started () .Unpack).2
      = ControlAction.Abort) from by decide)]
    rw [extract_all_eq_pure]
    exact extractAllLoop_pure_of_const r.file r.encryption_key
      abortOnFinishedHandler _ _ (fun _ _ => rfl) (fun _ _ => rfl)
      (fun _ _ => rfl) r.entries 0 0 _
  · intro r
    rfl
  · intro files w k hne hok hk1 hk2
    unfold write_to_writer at hok
    rw [if_neg hne] at hok
    cases hbe : buildEntries (sortedFiles files) 0 with
    | error e =>
        rw [hbe] at hok
        simp [Except.isOk, Except.toBool] at hok
    | ok pairs =>
        rw [hbe] at hok
        simp only [] at hok
        cases hwh : write_header w (pairs.map (·.1)) with
        | error e =>
            rw [hwh] at hok
            simp [Except.isOk, Except.toBool] at hok
        | ok w1 =>
            rw [hwh] at hok
            simp only [] at hok
            cases hwa : writeAll w1 pairs with
            | error e =>
                rw [hwa] at hok
                simp [Except.isOk, Except.toBool] at hok
            | ok wf =>
                have hlen : pairs.length = files.length := by
                  rw [buildEntries_length _ _ _ hbe]
                  exact (List.perm_insertionSort _ files).length_eq
                obtain ⟨w', hw1, hw2⟩ :=
                  (writeAllProgress_countAbort k pairs w1 wf 0 (by omega)
                    hwa).1 (by omega)
                refine ⟨w', pairs, w1, ?_, rfl, hwh, ?_⟩
                · unfold write_to_writer_with_progress
                  rw [if_neg hne]
                  simp only [countAbort_started]
                  rw [if_neg (show ¬((0, ControlAction.Continue).2
                    = ControlAction.Abort) from by decide)]
                  rw [hbe]
                  simp only []
                  rw [hwh]
                  simp only []
                  rw [hw1]
                · rw [show k - 1 = k - 0 - 1 from by omega]
                  exact hw2
  · intro r e rest k0 hent hbound hkey
    unfold extract_all_with_progress
    rw [if_neg (show ¬((abortOnProgressHandler.on_started () .Unpack).2
      = ControlAction.Abort) from by decide)]
    rw [hent, hkey]
    simp only [extractAllLoop, abortOnProgress_entry_started]
    rw [if_neg (show ¬(((), ControlAction.Continue).2
      = ControlAction.Abort) from by decide)]
    rw [extract_entry_abortOnProgress r.file k0 e _ _ _ _ hbound]
  · intro r outs k hext hk1 hk2
    have hpure : extractAllPure r.file r.encryption_key r.entries
        = (outs, .ok ()) := by
      rw [← extract_all_eq_pure]; exact hext
    unfold extract_all_with_progress
    simp only [entryFinAbort_started]
    rw [if_neg (show ¬((0, ControlAction.Continue).2 = ControlAction.Abort)
      from by decide)]
    have := (extractAllLoop_entryFinAbort r.file r.encryption_key
        ((r.entries.map (·.raw.size)).sum) r.entries.length k r.entries 0 0 0
        (by omega) (by rw [hpure])).1 (by omega)
    rw [hpure] at this
    simp only [] at this
    exact this
  · intro files w hne
    unfold write_to_writer_with_progress
    rw [if_neg hne]
    rfl
  · intro files w wf hok
    have hne : files ≠ [] := by
      intro h
      subst h
      unfold write_to_writer at hok
      simp at hok
    unfold write_to_writer at hok
    rw [if_neg hne] at hok
    cases hbe : buildEntries (sortedFiles files) 0 with
    | error e =>
        rw [hbe] at hok
        simp only [] at hok
        cases hok
    | ok pairs =>
        rw [hbe] at hok
        simp only [] at hok
        cases hwh : write_header w (pairs.map (·.1)) with
        | error e =>
            rw [hwh] at hok
            simp only [] at hok
            cases hok
        | ok w1 =>
            rw [hwh] at hok
            simp only [] at hok
            cases hwa : writeAll w1 pairs with
            | error e =>
                rw [hwa] at hok
                simp only [] at hok
                cases hok
            | ok w2 =>
                rw [hwa] at hok
                simp only [] at hok
                unfold write_to_writer_with_progress
                rw [if_neg hne]
                simp only [abortOnFinished_started]
                rw [if_neg (show ¬(((), ControlAction.Continue).2
                  = ControlAction.Abort) from by decide)]
                rw [hbe]
                simp only []
                rw [hwh]
                simp only []
                rw [writeAllProgress_finAbort pairs w1 w2 hwa]
                simp only []
                rw [hok]
  · intro files w k hne hok hk1 hk2
    unfold write_to_writer at hok
    rw [if_neg hne] at hok
    cases hbe : buildEntries (sortedFiles files) 0 with
    | error e =>
        rw [hbe] at hok
        simp [Except.isOk, Except.toBool] at hok
    | ok pairs =>
        rw [hbe] at hok
        simp only [] at hok
        cases hwh : write_header w (pairs.map (·.1)) with
        | error e =>
            rw [hwh] at hok
            simp [Except.isOk, Except.toBool] at hok
        | ok w1 =>
            rw [hwh] at hok
            simp only [] at hok
            cases hwa : writeAll w1 pairs with
            | error e =>
                rw [hwa] at hok
                simp [Except.isOk, Except.toBool] at hok
            | ok wfin =>
                have hlen : pairs.length = files.length := by
                  rw [buildEntries_length _ _ _ hbe]
                  exact (List.perm_insertionSort _ files).length_eq
                obtain ⟨w', hw1, hw2⟩ :=
                  (writeAllProgress_entryFinAbort k pairs w1 wfin 0 (by omega)
                    hwa).1 (by omega)
                refine ⟨w', pairs, w1, ?_, rfl, hwh, ?_⟩
                · unfold write_to_writer_with_progress
                  rw [if_neg hne]
                  simp only [entryFinAbort_started]
                  rw [if_neg (show ¬((0, ControlAction.Continue).2
                    = ControlAction.Abort) from by decide)]
                  rw [hbe]
                  simp only []
                  rw [hwh]
                  simp only []
                  rw [hw1]
                · exact hw2

set_option maxRecDepth 400000 in
theorem c9_cancellation_witness :
    extract_all
      { file := [10, 20]
        entries :=
          [{ raw := { name := [97], offset := 0, size := 1 },
             path := [[97]], encrypted := false },
           { raw := { name := [98], offset := 1, size := 1 },
             path := [[98]], encrypted := false }]
        encryption_key := none, format := .Pf6 }
      = ([([[97]], [10]), ([[98]], [20])], .ok ())
    ∧ extract_all_with_progress
      { file := [10, 20]
        entries :=
          [{ raw := { name := [97], offset := 0, size := 1 },
             path := [[97]], encrypted := false },
           { raw := { name := [98], offset := 1, size := 1 },
             path := [[98]], encrypted := false }]
        encryption_key := none, format := .Pf6 }
      (countAbortHandler 2) 0
      = (2, ([([[97]], [10]), ([[98]], [20])] :
          List (List (List Nat) × List Nat)).take (2 - 1), .error .Cancelled)
    ∧ ([([[97]], [5]), ([[98]], [6])] : List BFile) ≠ []
    ∧ (write_to_writer [([[97]], [5]), ([[98]], [6])]
        Pf8Writer.create).isOk = true
    ∧ (∃ w' pairs w1,
        write_to_writer_with_progress [([[97]], [5]), ([[98]], [6])]
          Pf8Writer.create (countAbortHandler 2) 0
          = (2, w', .error .Cancelled)
        ∧ buildEntries (sortedFiles [([[97]], [5]), ([[98]], [6])]) 0
          = .ok pairs
        ∧ write_header Pf8Writer.create (pairs.map (·.1)) = .ok w1
        ∧ writeAll w1 (pairs.take (2 - 1)) = .ok w')
    ∧ extract_all_with_progress
      { file := [10, 20]
        entries :=
          [{ raw := { name := [97], offset := 0, size := 1 },
             path := [[97]], encrypted := true },
           { raw := { name := [98], offset := 1, size := 1 },
             path := [[98]], encrypted := false }]
        encryption_key := some [3], format := .Pf8 }
      abortOnProgressHandler ()
      = ((), [([[97]], [9])], .error .Cancelled)
    ∧ extract_all_with_progress
      { file := [10, 20]
        entries :=
          [{ raw := { name := [97], offset := 0, size := 1 },
             path := [[97]], encrypted := false },
           { raw := { name := [98], offset := 1, size := 1 },
             path := [[98]], encrypted := false }]
        encryption_key := none, format := .Pf6 }
      (entryFinAbortHandler 1) 0
      = (1, ([([[97]], [10]), ([[98]], [20])] :
          List (List (List Nat) × List Nat)).take 1, .error .Cancelled)
    ∧ write_to_writer_with_progress [([[97]], [5])] Pf8Writer.create
        abortOnStartedHandler ()
      = ((), Pf8Writer.create, .error .Cancelled)
    ∧ (∃ wf, write_to_writer [([[97]], [5])] Pf8Writer.create = .ok wf
        ∧ write_to_writer_with_progress [([[97]], [5])] Pf8Writer.create
            abortOnFinishedHandler ()
          = ((), wf, .ok ()))
    ∧ (∃ w' pairs w1,
        write_to_writer_with_progress [([[97]], [5]), ([[98]], [6])]
          Pf8Writer.create (entryFinAbortHandler 1) 0
          = (1, w', .error .Cancelled)
        ∧ buildEntries (sortedFiles [([[97]], [5]), ([[98]], [6])]) 0
          = .ok pairs
        ∧ write_header Pf8Writer.create (pairs.map (·.1)) = .ok w1
        ∧ writeAll w1 (pairs.take 1) = .ok w') := by
  refine ⟨by decide, ?_, by decide, by decide, ?_, ?_, ?_, ?_, ?_, ?_⟩
  · exact c9_cancellation.1 _ [([[97]], [10]), ([[98]], [20])] 2 (by decide)
      (by decide) (by decide)
  · exact c9_cancellation.2.2.2.1 [([[97]], [5]), ([[98]], [6])]
      Pf8Writer.create 2 (by decide) (by decide) (by decide) (by decide)
  · have h5 := c9_cancellation.2.2.2.2.1
      { file := [10, 20]
        entries :=
          [{ raw := { name := [97], offset := 0, size := 1 },
             path := [[97]], encrypted := true },
           { raw := { name := [98], offset := 1, size := 1 },
             path := [[98]], encrypted := false }]
        encryption_key := some [3], format := .Pf8 }
      { raw := { name := [97], offset := 0, size := 1 },
        path := [[97]], encrypted := true }
      [{ raw := { name := [98], offset := 1, size := 1 },
         path := [[98]], encrypted := false }]
      [3] rfl (by decide) rfl
    rw [h5]
    decide
  · exact c9_cancellation.2.2.2.2.2.1 _ [([[97]], [10]), ([[98]], [20])] 1
      (by decide) (by decide) (by decide)
  · exact c9_cancellation.2.2.2.2.2.2.1 [([[97]], [5])] Pf8Writer.create
      (by decide)
  · have hok : (write_to_writer [([[97]], [5])] Pf8Writer.create).isOk
        = true := by decide
    cases hw : write_to_writer [([[97]], [5])] Pf8Writer.create with
    | error e =>
        rw [hw] at hok
        simp [Except.isOk, Except.toBool] at hok
    | ok wf =>
        exact ⟨wf, rfl, c9_cancellation.2.2.2.2.2.2.2.1 [([[97]], [5])]
          Pf8Writer.create wf hw⟩
  · exact c9_cancellation.2.2.2.2.2.2.2.2 [([[97]], [5]), ([[98]], [6])]
      Pf8Writer.create 1 (by decide) (by decide) (by decide) (by decide)

/-! ## Supporting lemmas for the pattern matcher. -/

theorem containsSub_correct (p s : List Nat) :
    containsSub p s = true ↔ p <:+: s := by
  induction s with
  | nil =>
      simp [containsSub, List.isEmpty_iff]
  | cons a l ih =>
      simp only [containsSub, Bool.or_eq_true, List.isPrefixOf_iff_prefix, ih,
        List.infix_cons_iff]

/-- `generate_key` on a buffer with the full 7 header bytes present:
always the SHA-1 of `data[7 .. 7+index_size]` (the fallback hashes
`data[7..]`, which is the same list because `take` past the end is the
identity). -/
theorem generate_key_eq (data : List Nat) (isz : Nat) (h : 7 ≤ data.length) :
    generate_key data isz = some (sha1 ((data.drop 7).take isz)) := by
  unfold generate_key
  simp only []
  split
  · rename_i hgt
    rw [if_neg (by omega)]
    congr 2
    refine (List.take_of_length_le ?_).symm
    simp [List.length_drop]; omega
  · rfl

/-! ## Byte-extraction lemmas for the serialised header. -/

theorem getD_concat (pre mid rest : List Nat) (j : Nat) (hj : j < mid.length) :
    (pre ++ (mid ++ rest)).getD (pre.length + j) 0 = mid.getD j 0 := by
  rw [List.getD_append_right _ _ _ _ (by omega), Nat.add_sub_cancel_left]
  exact List.getD_append _ _ _ j hj

theorem readU32leD_at_append (pre : List Nat) (v : Nat) (rest : List Nat) :
    readU32leD (pre ++ (le32 v ++ rest)) pre.length = v % 4294967296 := by
  have e0 := getD_concat pre (le32 v) rest 0 (by simp [le32])
  have e1 := getD_concat pre (le32 v) rest 1 (by simp [le32])
  have e2 := getD_concat pre (le32 v) rest 2 (by simp [le32])
  have e3 := getD_concat pre (le32 v) rest 3 (by simp [le32])
  rw [Nat.add_zero] at e0
  unfold readU32leD
  rw [e0, e1, e2, e3]
  simp only [le32, List.getD_cons_zero, List.getD_cons_succ]
  omega

theorem drop_take_exact (pre mid rest : List Nat) :
    ((pre ++ (mid ++ rest)).drop pre.length).take mid.length = mid := by
  rw [List.drop_left]
  exact List.take_left mid rest

theorem headerBytes_shape (entries : List Pf8Entry) :
    ∃ rest, headerBytes entries =
      PF8_MAGIC ++ (le32 (indexSizeVal entries)
        ++ (le32 (indexCountVal entries) ++ rest)) := by
  unfold headerBytes
  simp only [List.append_assoc]
  exact ⟨_, rfl⟩

theorem headerBytes_length_ge (entries : List Pf8Entry) :
    11 ≤ (headerBytes entries).length := by
  obtain ⟨rest, h⟩ := headerBytes_shape entries
  rw [h]
  simp only [List.length_append, PF8_MAGIC, le32, List.length_cons,
    List.length_nil]
  omega

theorem indexSizeVal_lt (entries : List Pf8Entry) :
    indexSizeVal entries < 4294967296 :=
  Nat.mod_lt _ (by norm_num)

theorem validate_magic_headerBytes (entries : List Pf8Entry) :
    validate_magic (headerBytes entries) = .ok .Pf8 := by
  obtain ⟨rest, h⟩ := headerBytes_shape entries
  unfold validate_magic
  rw [if_neg (by have := headerBytes_length_ge entries; omega)]
  rw [h, show (3 : Nat) = PF8_MAGIC.length from rfl, List.take_left]
  rw [if_neg (by decide), if_pos rfl]

theorem read_u32_le_headerBytes (entries : List Pf8Entry) :
    read_u32_le (headerBytes entries) 3 = .ok (indexSizeVal entries) := by
  obtain ⟨rest, h⟩ := headerBytes_shape entries
  unfold read_u32_le
  rw [if_neg (by have := headerBytes_length_ge entries; omega)]
  rw [h, show (3 : Nat) = PF8_MAGIC.length from rfl, readU32leD_at_append,
    Nat.mod_eq_of_lt (indexSizeVal_lt entries)]

theorem get_index_size_headerBytes (entries : List Pf8Entry) :
    get_index_size (headerBytes entries) = .ok (indexSizeVal entries) := by
  unfold get_index_size
  rw [validate_magic_headerBytes]
  show read_u32_le (headerBytes entries) 3 = _
  exact read_u32_le_headerBytes entries

/-- The encryption key `write_header` derives and caches. -/
def headerKey (entries : List Pf8Entry) : List Nat :=
  sha1 (((headerBytes entries).drop 7).take (indexSizeVal entries))

theorem write_header_created (w : Pf8Writer) (entries : List Pf8Entry)
    (h : w.state = .Created) :
    write_header w entries = .ok
      { output := w.output ++ headerBytes entries
        header_data := headerBytes entries
        data_start_pos := w.output.length + (headerBytes entries).length
        encryption_key := some (headerKey entries)
        state := .HeaderWritten } := by
  unfold write_header
  rw [if_neg (by simp [h])]
  simp only [get_index_size_headerBytes,
    generate_key_eq (headerBytes entries) (indexSizeVal entries)
      (by have := headerBytes_length_ge entries; omega)]
  rfl

/-- The record section of the header for an entry list, with the running
payload offset (u32). -/
def recordsFor : List Pf8Entry → Nat → List Nat
  | [], _ => []
  | e :: rest, off =>
    entryRecord e off ++ recordsFor rest ((off + e.raw.size) % 4294967296)

/-- The raw entries the reader recovers from that record section. -/
def rawsFor : List Pf8Entry → Nat → List RawEntry
  | [], _ => []
  | e :: rest, off =>
    { name := e.raw.name, offset := off, size := e.raw.size }
      :: rawsFor rest ((off + e.raw.size) % 4294967296)

theorem buildEntryRecords_fst (es : List Pf8Entry) :
    ∀ (off hl : Nat), (buildEntryRecords es off hl).1 = recordsFor es off := by
  induction es with
  | nil => intro off hl; rfl
  | cons e rest ih =>
      intro off hl
      simp only [buildEntryRecords, recordsFor, ih]

theorem rawsFor_length (es : List Pf8Entry) :
    ∀ off, (rawsFor es off).length = es.length := by
  induction es with
  | nil => intro off; rfl
  | cons e rest ih => intro off; simp [rawsFor, ih]

theorem entryRecord_length (e : Pf8Entry) (off : Nat) :
    (entryRecord e off).length = e.raw.name.length + 16 := by
  simp only [entryRecord, le32, List.length_append, List.length_cons,
    List.length_nil]
  omega

theorem recordsFor_length (es : List Pf8Entry) :
    ∀ off, (recordsFor es off).length = fileentrySize es := by
  induction es with
  | nil => intro off; rfl
  | cons e rest ih =>
      intro off
      rw [recordsFor, List.length_append, entryRecord_length, ih]
      simp only [fileentrySize, List.map_cons, List.sum_cons]

/-- Parsing the record section: the loop, started at the first record
with fuel `es.length`, recovers exactly the written entries. -/
theorem parseLoop_records (es : List Pf8Entry) :
    ∀ (off : Nat) (pre tail : List Nat) (acc : List RawEntry),
    (∀ e ∈ es, e.raw.name.length < 4294967296 ∧ e.raw.size < 4294967296
      ∧ utf8Valid e.raw.name = true) →
    off < 4294967296 →
    parseLoop (pre ++ (recordsFor es off ++ tail))
        (pre ++ (recordsFor es off ++ tail)).length
        es.length pre.length acc
      = .ok (acc.reverse ++ rawsFor es off) := by
  induction es with
  | nil =>
      intro off pre tail acc hnames hoff
      simp [parseLoop, rawsFor]
  | cons e rest ih =>
      intro off pre tail acc hnames hoff
      have he := hnames e (by simp)
      obtain ⟨hnl, hsz, hutf⟩ := he
      set nl := e.raw.name.length with hnl_def
      have hdata : pre ++ (recordsFor (e :: rest) off ++ tail)
          = pre ++ (le32 nl ++ (e.raw.name ++ ([0,0,0,0] ++ (le32 off
              ++ (le32 e.raw.size
                  ++ (recordsFor rest ((off + e.raw.size) % 4294967296)
                      ++ tail)))))) := by
        simp [recordsFor, entryRecord, List.append_assoc]
      rw [hdata]
      show parseLoop _ _ (rest.length + 1) _ _ = _
      simp only [parseLoop]
      rw [if_pos (by
        simp only [List.length_append, le32, List.length_cons, List.length_nil]
        omega)]
      rw [if_neg (by
        simp only [List.length_append, le32, List.length_cons, List.length_nil]
        omega)]
      rw [readU32leD_at_append, Nat.mod_eq_of_lt hnl]
      rw [if_neg (by
        simp only [List.length_append, le32, List.length_cons, List.length_nil]
        omega)]
      have hname : ((pre ++ (le32 nl ++ (e.raw.name ++ ([0,0,0,0] ++ (le32 off
              ++ (le32 e.raw.size
                  ++ (recordsFor rest ((off + e.raw.size) % 4294967296)
                      ++ tail))))))).drop (pre.length + 4)).take nl
          = e.raw.name := by
        have hshape : pre ++ (le32 nl ++ (e.raw.name ++ ([0,0,0,0] ++ (le32 off
              ++ (le32 e.raw.size
                  ++ (recordsFor rest ((off + e.raw.size) % 4294967296)
                      ++ tail))))))
            = (pre ++ le32 nl) ++ (e.raw.name ++ ([0,0,0,0] ++ (le32 off
              ++ (le32 e.raw.size
                  ++ (recordsFor rest ((off + e.raw.size) % 4294967296)
                      ++ tail))))) := by
          simp [List.append_assoc]
        rw [hshape,
          show pre.length + 4 = (pre ++ le32 nl).length from by
            simp [le32, List.length_append],
          show nl = e.raw.name.length from rfl]
        exact drop_take_exact (pre ++ le32 nl) e.raw.name _
      rw [hname, if_pos hutf]
      have hoffread : readU32leD (pre ++ (le32 nl ++ (e.raw.name
            ++ ([0,0,0,0] ++ (le32 off ++ (le32 e.raw.size
                ++ (recordsFor rest ((off + e.raw.size) % 4294967296)
                    ++ tail)))))))
          (pre.length + 4 + nl + 4) = off := by
        have hshape : pre ++ (le32 nl ++ (e.raw.name ++ ([0,0,0,0] ++ (le32 off
              ++ (le32 e.raw.size
                  ++ (recordsFor rest ((off + e.raw.size) % 4294967296)
                      ++ tail))))))
            = (pre ++ le32 nl ++ e.raw.name ++ [0,0,0,0]) ++ (le32 off
              ++ (le32 e.raw.size
                  ++ (recordsFor rest ((off + e.raw.size) % 4294967296)
                      ++ tail))) := by
          simp [List.append_assoc]
        rw [hshape,
          show pre.length + 4 + nl + 4
              = (pre ++ le32 nl ++ e.raw.name ++ ([0,0,0,0] : List Nat)).length
            from by simp [le32, List.length_append]; omega,
          readU32leD_at_append, Nat.mod_eq_of_lt hoff]
      have hszread : readU32leD (pre ++ (le32 nl ++ (e.raw.name
            ++ ([0,0,0,0] ++ (le32 off ++ (le32 e.raw.size
                ++ (recordsFor rest ((off + e.raw.size) % 4294967296)
                    ++ tail)))))))
          (pre.length + 4 + nl + 8) = e.raw.size := by
        have hshape : pre ++ (le32 nl ++ (e.raw.name ++ ([0,0,0,0] ++ (le32 off
              ++ (le32 e.raw.size
                  ++ (recordsFor rest ((off + e.raw.size) % 4294967296)
                      ++ tail))))))
            = (pre ++ le32 nl ++ e.raw.name ++ [0,0,0,0] ++ le32 off)
              ++ (le32 e.raw.size
                  ++ (recordsFor rest ((off + e.raw.size) % 4294967296)
                      ++ tail)) := by
          simp [List.append_assoc]
        rw [hshape,
          show pre.length + 4 + nl + 8
              = (pre ++ le32 nl ++ e.raw.name ++ ([0,0,0,0] : List Nat)
                  ++ le32 off).length
            from by simp [le32, List.length_append]; omega,
          readU32leD_at_append, Nat.mod_eq_of_lt hsz]
      rw [hoffread, hszread]
      have hD2 : pre ++ (le32 nl ++ (e.raw.name ++ ([0,0,0,0] ++ (le32 off
            ++ (le32 e.raw.size
                ++ (recordsFor rest ((off + e.raw.size) % 4294967296)
                    ++ tail))))))
          = (pre ++ entryRecord e off)
            ++ (recordsFor rest ((off + e.raw.size) % 4294967296) ++ tail) := by
        simp [entryRecord, List.append_assoc]
      rw [hD2,
        show pre.length + 4 + nl + 12 = (pre ++ entryRecord e off).length
          from by simp [entryRecord, le32, List.length_append]; omega]
      rw [ih ((off + e.raw.size) % 4294967296) (pre ++ entryRecord e off) tail
        _ (fun x hx => hnames x (by simp [hx])) (Nat.mod_lt _ (by norm_num))]
      simp [rawsFor, List.append_assoc]

theorem exceptOkBind {α β : Type} (a : α) (f : α → Except Error β) :
    (Except.ok a : Except Error α) >>= f = f a := rfl

theorem buildEntryRecords_snd_length (es : List Pf8Entry) :
    ∀ (off hl : Nat), (buildEntryRecords es off hl).2.length = es.length := by
  induction es with
  | nil => intro off hl; rfl
  | cons e rest ih =>
      intro off hl
      simp only [buildEntryRecords, List.length_cons, ih]

theorem flatten_map_le64_length (offs : List Nat) :
    ((offs.map le64).flatten).length = 8 * offs.length := by
  induction offs with
  | nil => rfl
  | cons o rest ih =>
      simp only [List.map_cons, List.flatten_cons, List.length_append, ih,
        le64, List.length_cons, List.length_nil]
      omega

theorem indexCountVal_lt (es : List Pf8Entry) :
    indexCountVal es < 4294967296 := Nat.mod_lt _ (by norm_num)

theorem dataStartVal_lt (es : List Pf8Entry) :
    dataStartVal es < 4294967296 := Nat.mod_lt _ (by norm_num)

theorem indexCountVal_eq (es : List Pf8Entry)
    (hb : 4 + fileentrySize es + 4 + (es.length + 1) * 8 + 4 < 4294967296) :
    indexCountVal es = es.length :=
  Nat.mod_eq_of_lt (by omega)

theorem indexSizeVal_eq (es : List Pf8Entry)
    (hb : 4 + fileentrySize es + 4 + (es.length + 1) * 8 + 4 < 4294967296) :
    indexSizeVal es = 4 + fileentrySize es + 4 + (es.length + 1) * 8 + 4 := by
  unfold indexSizeVal
  rw [indexCountVal_eq es hb]
  exact Nat.mod_eq_of_lt hb

theorem headerBytes_decomp (es : List Pf8Entry) :
    headerBytes es
      = (PF8_MAGIC ++ le32 (indexSizeVal es) ++ le32 (indexCountVal es))
        ++ (recordsFor es (dataStartVal es)
          ++ (le32 (indexCountVal es + 1)
            ++ ((buildEntryRecords es (dataStartVal es) 11).2.map le64).flatten
            ++ List.replicate 8 0
            ++ le32 ((PF8_MAGIC ++ le32 (indexSizeVal es)
                ++ le32 (indexCountVal es)
                ++ recordsFor es (dataStartVal es)
                ++ le32 (indexCountVal es + 1)).length - 4 - 7))) := by
  unfold headerBytes
  simp only [buildEntryRecords_fst, List.append_assoc]

theorem headerBytes_length_eq (es : List Pf8Entry)
    (hb : 4 + fileentrySize es + 4 + (es.length + 1) * 8 + 4 < 4294967296) :
    (headerBytes es).length = 7 + indexSizeVal es := by
  rw [headerBytes_decomp, indexSizeVal_eq es hb]
  simp only [List.length_append, PF8_MAGIC, le32, List.length_cons,
    List.length_nil, recordsFor_length, flatten_map_le64_length,
    buildEntryRecords_snd_length, List.length_replicate]
  omega

/-- Parsing the header the writer produced recovers exactly the written
entries (names, running offsets, sizes) and the PF8 format. -/
theorem parse_entries_headerBytes (es : List Pf8Entry)
    (hb : 4 + fileentrySize es + 4 + (es.length + 1) * 8 + 4 < 4294967296)
    (hn : ∀ e ∈ es, e.raw.name.length < 4294967296
      ∧ e.raw.size < 4294967296 ∧ utf8Valid e.raw.name = true) :
    parse_entries (headerBytes es)
      = .ok (rawsFor es (dataStartVal es), .Pf8) := by
  unfold parse_entries
  rw [validate_magic_headerBytes, exceptOkBind]
  rw [if_neg (by have := headerBytes_length_ge es; omega)]
  rw [read_u32_le_headerBytes, exceptOkBind]
  have hr7 : read_u32_le (headerBytes es) 7 = .ok (indexCountVal es) := by
    unfold read_u32_le
    rw [if_neg (by have := headerBytes_length_ge es; omega)]
    obtain ⟨rest, hshape⟩ := headerBytes_shape es
    rw [hshape]
    have hshape2 : PF8_MAGIC ++ (le32 (indexSizeVal es)
        ++ (le32 (indexCountVal es) ++ rest))
        = (PF8_MAGIC ++ le32 (indexSizeVal es))
          ++ (le32 (indexCountVal es) ++ rest) := by
      simp [List.append_assoc]
    rw [hshape2,
      show (7 : Nat) = (PF8_MAGIC ++ le32 (indexSizeVal es)).length from by
        simp [PF8_MAGIC, le32],
      readU32leD_at_append, Nat.mod_eq_of_lt (indexCountVal_lt es)]
  rw [hr7, exceptOkBind]
  have hmin : min (7 + indexSizeVal es) (headerBytes es).length
      = (headerBytes es).length := by
    rw [headerBytes_length_eq es hb]
    omega
  simp only []
  rw [hmin]
  have hloop : parseLoop (headerBytes es) (headerBytes es).length
      (indexCountVal es) 11 [] = .ok (rawsFor es (dataStartVal es)) := by
    rw [indexCountVal_eq es hb]
    have hcur : (11 : Nat) = (PF8_MAGIC ++ le32 (indexSizeVal es)
        ++ le32 (indexCountVal es)).length := by
      simp [PF8_MAGIC, le32]
    conv_lhs => rw [headerBytes_decomp es, hcur]
    rw [parseLoop_records es (dataStartVal es) _ _ [] hn (dataStartVal_lt es)]
    rfl
  rw [hloop, exceptOkBind]
  rw [if_neg (by
    rw [rawsFor_length, indexCountVal_eq es hb]
    simp)]

/-- The entry/content pairs the builder constructs from its sorted file
list, with the running `total_data_size`. -/
def entriesOf : List BFile → Nat → List (Pf8Entry × List Nat)
  | [], _ => []
  | (p, c) :: rest, total =>
    (Pf8Entry.new p total c.length UNENCRYPTED_FILTER, c)
      :: entriesOf rest ((total + c.length) % 4294967296)

theorem buildEntries_ok (fs : List BFile) :
    ∀ t, (∀ f ∈ fs, f.2.length ≤ 4294967295) →
    buildEntries fs t = .ok (entriesOf fs t) := by
  induction fs with
  | nil => intro t _; rfl
  | cons f rest ih =>
      intro t hsz
      rcases f with ⟨p, c⟩
      unfold buildEntries
      rw [if_neg (by
        have h := hsz (p, c) (by simp)
        simp only [] at h
        omega)]
      rw [ih _ (fun x hx => hsz x (by simp [hx])), exceptOkBind]
      rfl

theorem entriesOf_size (fs : List BFile) :
    ∀ t pc, pc ∈ entriesOf fs t → pc.1.raw.size = pc.2.length := by
  induction fs with
  | nil => intro t pc h; cases h
  | cons f rest ih =>
      intro t pc h
      rcases f with ⟨p, c⟩
      rcases List.mem_cons.mp h with h | h
      · subst h
        rfl
      · exact ih _ pc h

/-- The bytes the data-writing loop appends: each entry's (possibly
encrypted) payload, concatenated. -/
def payloadBytes (key : Option (List Nat)) :
    List (Pf8Entry × List Nat) → List Nat
  | [] => []
  | (e, c) :: rest =>
    writeTransform key e.encrypted (c.take e.raw.size) ++ payloadBytes key rest

theorem writeAll_ok (pairs : List (Pf8Entry × List Nat)) :
    ∀ (w : Pf8Writer),
    (w.state = .HeaderWritten ∨ w.state = .WritingData) →
    (∀ pc ∈ pairs, pc.1.raw.size ≤ pc.2.length) →
    ∃ w', writeAll w pairs = .ok w'
      ∧ w'.output = w.output ++ payloadBytes w.encryption_key pairs
      ∧ w'.encryption_key = w.encryption_key
      ∧ (w'.state = .HeaderWritten ∨ w'.state = .WritingData) := by
  induction pairs with
  | nil =>
      intro w hstate _
      exact ⟨w, rfl, by simp [payloadBytes], rfl, hstate⟩
  | cons pc rest ih =>
      intro w hstate hsz
      rcases pc with ⟨e, c⟩
      have h1 : w.state ≠ .Created := by rcases hstate with h | h <;> simp [h]
      have h2 : w.state ≠ .Finalized := by rcases hstate with h | h <;> simp [h]
      have hwd : write_file_data w e c
          = .ok { w with
              output := w.output
                ++ writeTransform w.encryption_key e.encrypted (c.take e.raw.size)
              state := .WritingData } := by
        unfold write_file_data
        rw [if_neg h1, if_neg h2,
          if_neg (Nat.not_lt.mpr (hsz (e, c) (by simp)))]
      obtain ⟨w', hw', hout, hkey, hst⟩ := ih
        { w with
          output := w.output
            ++ writeTransform w.encryption_key e.encrypted (c.take e.raw.size)
          state := .WritingData }
        (Or.inr rfl) (fun x hx => hsz x (by simp [hx]))
      refine ⟨w', ?_, ?_, hkey, hst⟩
      · unfold writeAll
        rw [hwd]
        exact hw'
      · rw [hout]
        simp [payloadBytes, List.append_assoc]

/-- A successful `write_to_writer` run from a fresh writer: the archive
is the header followed by the transformed payloads, in sorted order. -/
theorem write_to_writer_ok (files : List BFile)
    (hne : files ≠ [])
    (hsz : ∀ f ∈ files, f.2.length ≤ 4294967295) :
    ∃ wfin, write_to_writer files Pf8Writer.create = .ok wfin
      ∧ wfin.output
        = headerBytes ((entriesOf (sortedFiles files) 0).map (·.1))
          ++ payloadBytes
            (some (headerKey ((entriesOf (sortedFiles files) 0).map (·.1))))
            (entriesOf (sortedFiles files) 0) := by
  have hszs : ∀ f ∈ sortedFiles files, f.2.length ≤ 4294967295 := by
    intro f hf
    exact hsz f ((List.perm_insertionSort _ files).mem_iff.mp hf)
  unfold write_to_writer
  rw [if_neg hne, buildEntries_ok (sortedFiles files) 0 hszs]
  simp only []
  rw [write_header_created Pf8Writer.create _ rfl]
  simp only []
  obtain ⟨w', hw', hout, hkey, hst⟩ :=
    writeAll_ok (entriesOf (sortedFiles files) 0)
      { output := Pf8Writer.create.output
          ++ headerBytes ((entriesOf (sortedFiles files) 0).map (·.1))
        header_data := headerBytes ((entriesOf (sortedFiles files) 0).map (·.1))
        data_start_pos := Pf8Writer.create.output.length
          + (headerBytes ((entriesOf (sortedFiles files) 0).map (·.1))).length
        encryption_key :=
          some (headerKey ((entriesOf (sortedFiles files) 0).map (·.1)))
        state := .HeaderWritten }
      (Or.inl rfl)
      (fun pc hpc => le_of_eq (entriesOf_size (sortedFiles files) 0 pc hpc))
  rw [hw']
  simp only []
  have h1 : w'.state ≠ .Finalized := by rcases hst with h | h <;> simp [h]
  have h2 : w'.state ≠ .Created := by rcases hst with h | h <;> simp [h]
  refine ⟨{ w' with state := .Finalized }, ?_, ?_⟩
  · unfold finalize
    rw [if_neg h1, if_neg h2]
  · show w'.output = _
    rw [hout]
    simp [Pf8Writer.create]

theorem take_append_of_le (n : Nat) (a b : List Nat) (h : n ≤ a.length) :
    (a ++ b).take n = a.take n := by
  induction a generalizing n with
  | nil =>
      simp at h
      simp [h]
  | cons x xs ih =>
      cases n with
      | zero => simp
      | succ m =>
          simp only [List.cons_append, List.take_succ_cons]
          rw [ih m (by simp at h; omega)]

/-- Opening the archive `headerBytes es ++ P` recovers the parsed
entries, the PF8 format and the same key the writer cached. -/
theorem open_header_archive (es : List Pf8Entry) (P : List Nat)
    (hb : 4 + fileentrySize es + 4 + (es.length + 1) * 8 + 4 < 4294967296)
    (hn : ∀ e ∈ es, e.raw.name.length < 4294967296
      ∧ e.raw.size < 4294967296 ∧ utf8Valid e.raw.name = true) :
    Pf8Reader.open (headerBytes es ++ P) UNENCRYPTED_FILTER
      = .ok { file := headerBytes es ++ P
              entries := (rawsFor es (dataStartVal es)).map
                (fun r => Pf8Entry.from_raw_with_format r UNENCRYPTED_FILTER .Pf8)
              encryption_key := some (headerKey es)
              format := .Pf8 } := by
  have hHlen := headerBytes_length_eq es hb
  have hge := headerBytes_length_ge es
  obtain ⟨rest, hshape⟩ := headerBytes_shape es
  have htake11 : (headerBytes es ++ P).take 11 = (headerBytes es).take 11 :=
    take_append_of_le 11 _ P (by omega)
  have htake11b : (headerBytes es).take 11
      = PF8_MAGIC ++ le32 (indexSizeVal es) ++ le32 (indexCountVal es) := by
    rw [hshape]
    have h1 : (11 : Nat) = PF8_MAGIC.length + 8 := by simp [PF8_MAGIC]
    rw [h1, List.take_append]
    have h2 : (8 : Nat) = (le32 (indexSizeVal es)).length + 4 := by simp [le32]
    rw [h2, List.take_append]
    have h3 : (4 : Nat) = (le32 (indexCountVal es) ++ rest).length.min 4 ∨
        True := Or.inr trivial
    have h4 : (le32 (indexCountVal es) ++ rest).take 4
        = le32 (indexCountVal es) := by
      rw [show (4 : Nat) = (le32 (indexCountVal es)).length from by simp [le32],
        List.take_left]
    rw [h4]
    simp [List.append_assoc]
  unfold Pf8Reader.open
  rw [if_neg (by simp only [List.length_append]; omega)]
  simp only []
  rw [htake11, htake11b]
  have hvm : validate_magic
      (PF8_MAGIC ++ le32 (indexSizeVal es) ++ le32 (indexCountVal es))
      = .ok .Pf8 := by
    unfold validate_magic
    rw [if_neg (by simp [PF8_MAGIC, le32])]
    rw [show PF8_MAGIC ++ le32 (indexSizeVal es) ++ le32 (indexCountVal es)
        = PF8_MAGIC ++ (le32 (indexSizeVal es) ++ le32 (indexCountVal es))
      from by simp [List.append_assoc]]
    rw [show (3 : Nat) = PF8_MAGIC.length from rfl, List.take_left]
    rw [if_neg (by decide), if_pos rfl]
  rw [hvm, exceptOkBind]
  have hr3 : read_u32_le
      (PF8_MAGIC ++ le32 (indexSizeVal es) ++ le32 (indexCountVal es)) 3
      = .ok (indexSizeVal es) := by
    unfold read_u32_le
    rw [if_neg (by simp [PF8_MAGIC, le32])]
    rw [show PF8_MAGIC ++ le32 (indexSizeVal es) ++ le32 (indexCountVal es)
        = PF8_MAGIC ++ (le32 (indexSizeVal es) ++ le32 (indexCountVal es))
      from by simp [List.append_assoc]]
    rw [show (3 : Nat) = PF8_MAGIC.length from rfl, readU32leD_at_append,
      Nat.mod_eq_of_lt (indexSizeVal_lt es)]
  rw [hr3, exceptOkBind]
  rw [if_neg (by simp only [List.length_append]; omega)]
  have htakeH : (headerBytes es ++ P).take (7 + indexSizeVal es)
      = headerBytes es := by
    rw [← hHlen, List.take_left]
  rw [htakeH, parse_entries_headerBytes es hb hn, exceptOkBind]
  simp only []
  rw [generate_key_eq (headerBytes es) (indexSizeVal es) (by omega)]
  rfl

theorem writeTransform_plain (key : Option (List Nat)) (data : List Nat) :
    writeTransform key false data = data := by
  unfold writeTransform
  split <;> cases key <;> simp

theorem writeTransform_enc (k : List Nat) (data : List Nat) :
    writeTransform (some k) true data = xorAt k 0 data := by
  unfold writeTransform
  split
  · rfl
  · simp [processChunksXor_chunksOf]

theorem writeTransform_length (key : Option (List Nat)) (enc : Bool)
    (data : List Nat) :
    (writeTransform key enc data).length = data.length := by
  cases enc
  · rw [writeTransform_plain]
  · cases key with
    | none =>
        unfold writeTransform
        split <;> simp
    | some k =>
        rw [writeTransform_enc, xorAt_length]

theorem entryPayloadResult_some (archive : List Nat) (k : List Nat)
    (e : Pf8Entry) (hb : e.raw.offset + e.raw.size ≤ archive.length) :
    entryPayloadResult archive (some k) e
      = ((if e.encrypted then
            xorAt k 0 ((archive.drop e.raw.offset).take e.raw.size)
          else (archive.drop e.raw.offset).take e.raw.size),
         .ok e.raw.size) := by
  have hplen : ((archive.drop e.raw.offset).take e.raw.size).length
      = e.raw.size := by
    simp only [List.length_take, List.length_drop]
    omega
  unfold entryPayloadResult
  rw [if_neg (by omega)]
  by_cases hsz : e.raw.size ≤ BUFFER_SIZE
  · rw [if_pos hsz]
    by_cases henc : e.encrypted
    · simp [henc]
    · simp [henc]
  · rw [if_neg hsz]
    by_cases henc : e.encrypted
    · have hcp : ∀ (cs : List (List Nat)) (bw : Nat),
          chunksPure (some k) true cs bw
            = (processChunksXor k bw cs, .ok (bw + cs.flatten.length)) := by
        intro cs
        induction cs with
        | nil => intro bw; simp [chunksPure, processChunksXor]
        | cons c cs ih =>
            intro bw
            simp only [chunksPure, processChunksXor, ih, List.flatten_cons,
              List.length_append]
            rw [show bw + (c.length + cs.flatten.length)
                = bw + c.length + cs.flatten.length from by omega]
            simp
      rw [henc]
      simp only [hcp, processChunksXor_chunksOf, chunksOf_flatten, hplen]
      simp [henc]
    · have hcp : ∀ (cs : List (List Nat)) (bw : Nat),
          chunksPure (some k) false cs bw
            = (cs.flatten, .ok (bw + cs.flatten.length)) := by
        intro cs
        induction cs with
        | nil => intro bw; simp [chunksPure]
        | cons c cs ih =>
            intro bw
            simp only [chunksPure, ih, List.flatten_cons, List.length_append]
            rw [show bw + (c.length + cs.flatten.length)
                = bw + c.length + cs.flatten.length from by omega]
            simp
      simp only [Bool.not_eq_true] at henc
      rw [henc]
      simp only [hcp, chunksOf_flatten, hplen]
      simp [henc]

theorem trimEndNulls_eq_self (l : List Nat) (h : 0 ∉ l) :
    trimEndNulls l = l := by
  unfold trimEndNulls
  have hself : l.reverse.dropWhile (· == 0) = l.reverse := by
    rw [List.dropWhile_eq_self_iff]
    intro hl hc
    apply h
    have hmem : l.reverse.get ⟨0, hl⟩ ∈ l.reverse := List.get_mem _ _ _
    rw [List.mem_reverse] at hmem
    rwa [beq_iff_eq.mp hc] at hmem
  rw [hself, List.reverse_reverse]

theorem not_mem_intercalate92 (b : Nat) (hb : b ≠ 92) :
    ∀ (ps : List (List Nat)), (∀ comp ∈ ps, b ∉ comp) →
    b ∉ List.intercalate [92] ps := by
  intro ps
  induction ps with
  | nil =>
      intro _
      simp [List.intercalate]
  | cons c rest ih =>
      intro h2
      cases rest with
      | nil =>
          rw [show List.intercalate [92] [c] = c from by simp [List.intercalate]]
          exact h2 c (by simp)
      | cons d rest2 =>
          rw [show List.intercalate [92] (c :: d :: rest2)
              = c ++ 92 :: List.intercalate [92] (d :: rest2) from by
            simp [List.intercalate, List.intersperse]]
          intro hmem
          rcases List.mem_append.mp hmem with hc | hc
          · exact h2 c (by simp) hc
          · rcases List.mem_cons.mp hc with hc | hc
            · exact hb hc
            · exact ih (fun x hx => h2 x (by simp [hx])) hc

/-- Normalising the raw name the writer stored recovers the original
path components. -/
theorem path_roundtrip (p : List (List Nat)) (hne : p ≠ [])
    (h0 : ∀ comp ∈ p, (0 : Nat) ∉ comp)
    (h92 : ∀ comp ∈ p, (92 : Nat) ∉ comp) :
    pf8_path_to_pathbuf (trimEndNulls (pathbuf_to_pf8_path p)) = p := by
  unfold pf8_path_to_pathbuf pathbuf_to_pf8_path
  rw [trimEndNulls_eq_self _ (not_mem_intercalate92 0 (by decide) p h0)]
  exact List.splitOn_intercalate p 92 h92 hne

/-- C7: the XOR keystream transformation is an involution at every offset
and key (`key ≠ []` excludes the Rust panic on `% 0`), and
`crypto::encrypt`/`crypto::decrypt` are the same transformation, so
`decrypt (encrypt buf key) key = buf`. -/
theorem c7_cipher_involution (key : List Nat) (off : Nat) (buf : List Nat)
    (hkey : key ≠ []) :
    xorAt key off (xorAt key off buf) = buf
    ∧ decrypt (encrypt buf key) key = buf
    ∧ encrypt buf key = decrypt buf key := by
  refine ⟨xorAt_xorAt key off buf, xorAt_xorAt key 0 buf, rfl⟩

theorem c7_cipher_involution_witness :
    ([5, 7] : List Nat) ≠ []
    ∧ (xorAt [5, 7] 3 (xorAt [5, 7] 3 [10, 20, 30]) = [10, 20, 30]
       ∧ decrypt (encrypt [10, 20, 30] [5, 7]) [5, 7] = [10, 20, 30]
       ∧ encrypt [10, 20, 30] [5, 7] = decrypt [10, 20, 30] [5, 7]) :=
  ⟨by decide, c7_cipher_involution [5, 7] 3 [10, 20, 30] (by decide)⟩

/-- C5: XOR-processing any partition of a payload into consecutive
chunks, carrying the entry-local cumulative offset, equals the one-pass
transformation at offset 0; in particular the writer's
small-file/chunked branches (`writeTransform`) and the reader's
(`readTransform`) all compute the whole-payload XOR. -/
theorem c5_per_entry_keystream_reset (key : List Nat) (off : Nat)
    (chunks : List (List Nat)) (data : List Nat) :
    processChunksXor key off chunks = xorAt key off chunks.flatten
    ∧ writeTransform (some key) true data = xorAt key 0 data
    ∧ readTransform (some key) true data = .ok (xorAt key 0 data) := by
  refine ⟨processChunksXor_eq_flatten key off chunks, ?_, ?_⟩
  · unfold writeTransform
    split
    · rfl
    · simp [processChunksXor_chunksOf]
  · unfold readTransform
    split
    · rfl
    · simp [processChunksXor_chunksOf]

/-- C4: with at least `0x07 + index_size` bytes available `generate_key`
returns the SHA-1 of `data[0x07 .. 0x07+index_size]`; a shorter buffer
(with the 7 header bytes present) hashes `data[0x07..]` instead of
failing; hence the key depends only on the index-region bytes: equal
index slices give equal keys. -/
theorem c4_key_derivation (data data2 : List Nat) (isz : Nat)
    (h : 7 ≤ data.length) (h2 : 7 ≤ data2.length)
    (hsame : (data.drop 7).take isz = (data2.drop 7).take isz) :
    generate_key data isz = some (sha1 ((data.drop 7).take isz))
    ∧ generate_key data isz = generate_key data2 isz := by
  refine ⟨generate_key_eq data isz h, ?_⟩
  rw [generate_key_eq data isz h, generate_key_eq data2 isz h2, hsame]

theorem c4_key_derivation_witness :
    7 ≤ ([0, 1, 2, 3, 4, 5, 6, 7, 8] : List Nat).length
    ∧ 7 ≤ ([9, 9, 9, 9, 9, 9, 9, 7, 8, 10] : List Nat).length
    ∧ (([0, 1, 2, 3, 4, 5, 6, 7, 8] : List Nat).drop 7).take 2 =
        (([9, 9, 9, 9, 9, 9, 9, 7, 8, 10] : List Nat).drop 7).take 2
    ∧ (generate_key [0, 1, 2, 3, 4, 5, 6, 7, 8] 2 =
        some (sha1 ((([0, 1, 2, 3, 4, 5, 6, 7, 8] : List Nat).drop 7).take 2))
       ∧ generate_key [0, 1, 2, 3, 4, 5, 6, 7, 8] 2 =
          generate_key [9, 9, 9, 9, 9, 9, 9, 7, 8, 10] 2) :=
  ⟨by decide, by decide, by decide,
    c4_key_derivation [0, 1, 2, 3, 4, 5, 6, 7, 8] [9, 9, 9, 9, 9, 9, 9, 7, 8, 10]
      2 (by decide) (by decide) (by decide)⟩

/-- C10: `generate_key` is total (a 20-byte digest) whenever the 7
header bytes are present, for every declared `index_size`; on a buffer
shorter than 7 bytes whose declared `index_size` exceeds the data, the
fallback slice `&data[7..]` is out of bounds and the function panics
(modelled as `none`) — witnessed by the 3-byte buffer `"pf8"` with
`index_size = 100`. -/
theorem c10_generate_key_totality :
    (∀ (data : List Nat) (isz : Nat), 7 ≤ data.length →
      ∃ key, generate_key data isz = some key ∧ key.length = 20)
    ∧ generate_key [112, 102, 56] 100 = none := by
  constructor
  · intro data isz h
    exact ⟨_, generate_key_eq data isz h, sha1_length _⟩
  · rfl

theorem c10_generate_key_totality_witness :
    7 ≤ ([0, 0, 0, 0, 0, 0, 0, 1] : List Nat).length
    ∧ ∃ key, generate_key [0, 0, 0, 0, 0, 0, 0, 1] 4 = some key
        ∧ key.length = 20 :=
  ⟨by decide, c10_generate_key_totality.1 [0, 0, 0, 0, 0, 0, 0, 1] 4 (by decide)⟩

/-- C3: an entry constructed for a PF6 archive is never encrypted,
whatever the patterns; a PF8 entry is unencrypted exactly when some
pattern matches the raw backslash-separated name — a pattern starting
with `'.'` (byte 46) by suffix, any other by equality or substring
(infix) containment. -/
theorem c3_encryption_classification (raw : RawEntry)
    (patterns : List (List Nat)) :
    (Pf8Entry.from_raw_with_format raw patterns .Pf6).encrypted = false
    ∧ ((Pf8Entry.from_raw_with_format raw patterns .Pf8).encrypted = false ↔
        ∃ p ∈ patterns,
          (p.head? = some 46 ∧ p <:+ raw.name)
          ∨ (p.head? ≠ some 46 ∧ (raw.name = p ∨ p <:+: raw.name))) := by
  constructor
  · rfl
  · show (!matches_any_pattern raw.name patterns) = false ↔ _
    simp only [Bool.not_eq_false', matches_any_pattern, List.any_eq_true]
    constructor
    · rintro ⟨p, hp, hmatch⟩
      refine ⟨p, hp, ?_⟩
      by_cases hdot : p.head? = some 46
      · rw [if_pos hdot] at hmatch
        exact Or.inl ⟨hdot, List.isSuffixOf_iff_suffix.mp hmatch⟩
      · rw [if_neg hdot, Bool.or_eq_true] at hmatch
        rcases hmatch with heq | hsub
        · exact Or.inr ⟨hdot, Or.inl (by exact beq_iff_eq.mp heq)⟩
        · exact Or.inr ⟨hdot, Or.inr ((containsSub_correct p raw.name).mp hsub)⟩
    · rintro ⟨p, hp, hcase⟩
      refine ⟨p, hp, ?_⟩
      rcases hcase with ⟨hdot, hsuf⟩ | ⟨hdot, hor⟩
      · rw [if_pos hdot]
        exact List.isSuffixOf_iff_suffix.mpr hsuf
      · rw [if_neg hdot, Bool.or_eq_true]
        rcases hor with heq | hsub
        · exact Or.inl (beq_iff_eq.mpr heq)
        · exact Or.inr ((containsSub_correct p raw.name).mpr hsub)

/-- C2: the writer state machine.  `write_header` succeeds exactly in
`Created` (moving to `HeaderWritten`) and is `InvalidFormat` elsewhere;
`write_file_data` is `InvalidFormat` in `Created` and `Finalized` and
succeeds (moving to `WritingData`) in `HeaderWritten`/`WritingData`
whenever the source file is long enough; `finalize` is `InvalidFormat`
in `Created`, moves `HeaderWritten`/`WritingData` to `Finalized`, and is
a successful no-op when already `Finalized` — so calling it twice
succeeds both times.  No other transitions exist. -/
theorem c2_writer_state_machine (w : Pf8Writer) (entries : List Pf8Entry)
    (e : Pf8Entry) (src : List Nat) (hsrc : e.raw.size ≤ src.length) :
    (w.state = .Created →
      ∃ w', write_header w entries = .ok w' ∧ w'.state = .HeaderWritten)
    ∧ (w.state ≠ .Created →
      ∃ msg, write_header w entries = .error (.InvalidFormat msg))
    ∧ (w.state = .Created ∨ w.state = .Finalized →
      ∃ msg, write_file_data w e src = .error (.InvalidFormat msg))
    ∧ (w.state = .HeaderWritten ∨ w.state = .WritingData →
      ∃ w', write_file_data w e src = .ok w' ∧ w'.state = .WritingData)
    ∧ (w.state = .Created →
      ∃ msg, finalize w = .error (.InvalidFormat msg))
    ∧ (w.state = .HeaderWritten ∨ w.state = .WritingData →
      ∃ w', finalize w = .ok w' ∧ w'.state = .Finalized)
    ∧ (w.state = .Finalized → finalize w = .ok w)
    ∧ (w.state ≠ .Created →
      ∃ w' w'', finalize w = .ok w' ∧ finalize w' = .ok w''
        ∧ w'.state = .Finalized ∧ w'' = w') := by
  refine ⟨?_, ?_, ?_, ?_, ?_, ?_, ?_, ?_⟩
  · intro h
    exact ⟨_, write_header_created w entries h, rfl⟩
  · intro h
    unfold write_header
    rw [if_pos (by simp [h])]
    exact ⟨_, rfl⟩
  · intro h
    unfold write_file_data
    rcases h with h | h
    · rw [if_pos h]; exact ⟨_, rfl⟩
    · rw [if_neg (by simp [h]), if_pos h]; exact ⟨_, rfl⟩
  · intro h
    unfold write_file_data
    have h1 : w.state ≠ .Created := by rcases h with h | h <;> simp [h]
    have h2 : w.state ≠ .Finalized := by rcases h with h | h <;> simp [h]
    rw [if_neg h1, if_neg h2, if_neg (Nat.not_lt.mpr hsrc)]
    exact ⟨_, rfl, rfl⟩
  · intro h
    unfold finalize
    rw [if_neg (by simp [h]), if_pos h]
    exact ⟨_, rfl⟩
  · intro h
    unfold finalize
    have h1 : w.state ≠ .Finalized := by rcases h with h | h <;> simp [h]
    have h2 : w.state ≠ .Created := by rcases h with h | h <;> simp [h]
    rw [if_neg h1, if_neg h2]
    exact ⟨_, rfl, rfl⟩
  · intro h
    unfold finalize
    rw [if_pos h]
  · intro h
    by_cases hf : w.state = .Finalized
    · refine ⟨w, w, ?_, ?_, hf, rfl⟩ <;> unfold finalize <;> rw [if_pos hf]
    · refine ⟨{ w with state := .Finalized }, { w with state := .Finalized },
        ?_, ?_, rfl, rfl⟩
      · unfold finalize
        rw [if_neg hf, if_neg h]
      · unfold finalize
        rw [if_pos rfl]

/-- C6: `parse_entries` walks records from 0x0B and stops at the clamped
index-region end `min (7 + index_size) data.length`, when `index_count`
entries have been produced (the fuel), or when a record's declared
`name_length` would read past the buffer; a parsed-entry count differing
from the declared `index_count` is a `Corrupted` error, a matching count
a success; and a buffer shorter than 3 bytes or with a magic that is
neither `"pf6"` nor `"pf8"` is an `InvalidFormat` error. -/
theorem c6_parse_entries (data : List Nat) :
    ((data.length < 3 ∨ (data.take 3 ≠ PF6_MAGIC ∧ data.take 3 ≠ PF8_MAGIC)) →
      ∃ msg, parse_entries data = .error (.InvalidFormat msg))
    ∧ (∀ fmt, validate_magic data = .ok fmt → 11 ≤ data.length →
        ∀ entries,
          parseLoop data (min (7 + readU32leD data 3) data.length)
              (readU32leD data 7) 11 [] = .ok entries →
          (entries.length = readU32leD data 7 →
            parse_entries data = .ok (entries, fmt))
          ∧ (entries.length ≠ readU32leD data 7 →
            ∃ msg, parse_entries data = .error (.Corrupted msg)))
    ∧ (∀ iend fuel cursor acc, iend ≤ cursor →
        parseLoop data iend (fuel + 1) cursor acc = .ok acc.reverse)
    ∧ (∀ iend cursor acc, parseLoop data iend 0 cursor acc = .ok acc.reverse)
    ∧ (∀ iend fuel cursor acc, cursor < iend →
        data.length < cursor + 4 + readU32leD data cursor + 12 →
        parseLoop data iend (fuel + 1) cursor acc = .ok acc.reverse) := by
  refine ⟨?_, ?_, ?_, ?_, ?_⟩
  · intro h
    unfold parse_entries validate_magic
    by_cases hlen : data.length < 3
    · rw [if_pos hlen]
      exact ⟨_, rfl⟩
    · rcases h with h | ⟨h6, h8⟩
      · omega
      · rw [if_neg hlen]
        simp only [if_neg h6, if_neg h8]
        exact ⟨_, rfl⟩
  · intro fmt hfmt hlen entries hloop
    have hparse : parse_entries data =
        if entries.length ≠ readU32leD data 7 then
          .error (.Corrupted ("Index count mismatch. Expected " ++
            toString (readU32leD data 7) ++ ", found " ++
            toString entries.length))
        else .ok (entries, fmt) := by
      unfold parse_entries
      rw [hfmt]
      show (if data.length < 11 then _ else _ : Except Error _) = _
      rw [if_neg (by omega)]
      show (read_u32_le data 3).bind _ = _
      unfold read_u32_le
      rw [if_neg (by omega)]
      show (read_u32_le data 7).bind _ = _
      unfold read_u32_le
      rw [if_neg (by omega)]
      show (parseLoop data _ _ 11 []).bind _ = _
      rw [hloop]
      rfl
    constructor
    · intro hcount
      rw [hparse, if_neg (by simp [hcount])]
    · intro hcount
      rw [hparse, if_pos hcount]
      exact ⟨_, rfl⟩
  · intro iend fuel cursor acc h
    unfold parseLoop
    rw [if_neg (by omega)]
  · intro iend cursor acc
    rfl
  · intro iend fuel cursor acc hlt hover
    unfold parseLoop
    rw [if_pos hlt]
    by_cases h4 : cursor + 4 > data.length
    · rw [if_pos h4]
    · rw [if_neg h4]
      simp only [if_pos (show cursor + 4 + readU32leD data cursor + 12 >
        data.length by omega)]

theorem c6_parse_entries_witness :
    (∃ msg, parse_entries [1, 2] = .error (.InvalidFormat msg))
    ∧ (∃ msg,
        parse_entries ([112, 102, 56] ++ [200, 0, 0, 0] ++ [5, 0, 0, 0])
          = .error (.Corrupted msg))
    ∧ parseLoop [112, 102, 56, 200, 0, 0, 0, 5, 0, 0, 0] 11 1 11 []
        = .ok [] := by
  refine ⟨?_, ?_, ?_⟩
  · exact (c6_parse_entries [1, 2]).1 (Or.inl (by decide))
  · exact (((c6_parse_entries
      ([112, 102, 56] ++ [200, 0, 0, 0] ++ [5, 0, 0, 0])).2.1 .Pf8
      (by decide) (by decide) [] (by decide)).2 (by decide))
  · exact (c6_parse_entries [112, 102, 56, 200, 0, 0, 0, 5, 0, 0, 0]).2.2.1
      11 0 11 [] (by decide)

instance : IsTotal BFile (fun a b => a.1 ≤ b.1) :=
  ⟨fun a b => le_total a.1 b.1⟩

instance : IsTrans BFile (fun a b => a.1 ≤ b.1) :=
  ⟨fun _ _ _ h h' => le_trans h h'⟩

instance : IsAntisymm BFile (fun a b => a.1 < b.1) :=
  ⟨fun _ _ h h' => absurd h' (not_lt.mpr (le_of_lt h))⟩

/-- With pairwise-distinct archive paths, the sorted file list of a
builder depends only on the multiset of files (sorting cancels the
insertion order). -/
theorem sortedFiles_eq_of_perm (files₁ files₂ : List BFile)
    (hperm : files₁.Perm files₂)
    (hdist : files₁.Pairwise (fun a b => a.1 ≠ b.1)) :
    sortedFiles files₁ = sortedFiles files₂ := by
  have hsymm : ∀ {x y : BFile}, x.1 ≠ y.1 → y.1 ≠ x.1 := fun h => h.symm
  have hdist₂ : files₂.Pairwise (fun a b => a.1 ≠ b.1) :=
    (List.Perm.pairwise_iff hsymm hperm).mp hdist
  have hp₁ : (sortedFiles files₁).Perm files₁ :=
    List.perm_insertionSort _ files₁
  have hp₂ : (sortedFiles files₂).Perm files₂ :=
    List.perm_insertionSort _ files₂
  have hd₁ : (sortedFiles files₁).Pairwise (fun a b => a.1 ≠ b.1) :=
    (List.Perm.pairwise_iff hsymm hp₁).mpr hdist
  have hd₂ : (sortedFiles files₂).Pairwise (fun a b => a.1 ≠ b.1) :=
    (List.Perm.pairwise_iff hsymm hp₂).mpr hdist₂
  have hs₁ : (sortedFiles files₁).Sorted (fun a b : BFile => a.1 ≤ b.1) :=
    List.sorted_insertionSort _ files₁
  have hs₂ : (sortedFiles files₂).Sorted (fun a b : BFile => a.1 ≤ b.1) :=
    List.sorted_insertionSort _ files₂
  have hlt₁ : (sortedFiles files₁).Sorted (fun a b : BFile => a.1 < b.1) :=
    List.Pairwise.imp₂ (fun _ _ hle hne => lt_of_le_of_ne hle hne) hs₁ hd₁
  have hlt₂ : (sortedFiles files₂).Sorted (fun a b : BFile => a.1 < b.1) :=
    List.Pairwise.imp₂ (fun _ _ hle hne => lt_of_le_of_ne hle hne) hs₂ hd₂
  exact List.eq_of_perm_of_sorted
    (hp₁.trans (hperm.trans hp₂.symm)) hlt₁ hlt₂

set_option maxRecDepth 400000 in
/-- C8 counterexample: two builders holding the same multiset of
(source, archive-path) pairs — the same archive path `"x.mp4"` with two
different one-byte sources — in opposite insertion orders produce
different archives: the sort is stable, so equal paths keep their
insertion order and the payload bytes differ. -/
theorem c8_counterexample :
    List.Perm
      [([[120, 46, 109, 112, 52]], [1]), ([[120, 46, 109, 112, 52]], [2])]
      [([[120, 46, 109, 112, 52]], [2]), ([[120, 46, 109, 112, 52]], [1])]
    ∧ (write_to_writer
        [([[120, 46, 109, 112, 52]], [1]), ([[120, 46, 109, 112, 52]], [2])]
        Pf8Writer.create).isOk = true
    ∧ (write_to_writer
        [([[120, 46, 109, 112, 52]], [2]), ([[120, 46, 109, 112, 52]], [1])]
        Pf8Writer.create).isOk = true
    ∧ (write_to_writer
        [([[120, 46, 109, 112, 52]], [1]), ([[120, 46, 109, 112, 52]], [2])]
        Pf8Writer.create).map Pf8Writer.output
      ≠ (write_to_writer
        [([[120, 46, 109, 112, 52]], [2]), ([[120, 46, 109, 112, 52]], [1])]
        Pf8Writer.create).map Pf8Writer.output := by
  refine ⟨by decide, by decide, by decide, by decide⟩

/-- C8 (amended): for builders whose accumulated files have pairwise
distinct archive paths, `write_to_writer` sorts by archive path before
writing, so any two insertion orders of the same files produce identical
results. -/
theorem c8_builder_determinism (files₁ files₂ : List BFile) (w : Pf8Writer)
    (hperm : files₁.Perm files₂)
    (hdist : files₁.Pairwise (fun a b => a.1 ≠ b.1)) :
    write_to_writer files₁ w = write_to_writer files₂ w := by
  unfold write_to_writer
  by_cases h1 : files₁ = []
  · have h2 : files₂ = [] := by
      subst h1
      exact List.Perm.eq_nil hperm.symm
    rw [if_pos h1, if_pos h2]
  · have h2 : files₂ ≠ [] := by
      intro hc
      subst hc
      exact h1 (List.Perm.eq_nil hperm)
    rw [if_neg h1, if_neg h2, sortedFiles_eq_of_perm files₁ files₂ hperm hdist]

theorem c8_builder_determinism_witness :
    List.Perm [([[97]], ([5] : List Nat)), ([[98]], [6])]
      [([[98]], [6]), ([[97]], [5])]
    ∧ List.Pairwise (fun a b => a.1 ≠ b.1)
        [([[97]], ([5] : List Nat)), ([[98]], [6])]
    ∧ write_to_writer [([[97]], [5]), ([[98]], [6])] Pf8Writer.create
      = write_to_writer [([[98]], [6]), ([[97]], [5])] Pf8Writer.create :=
  ⟨by decide, by decide,
    c8_builder_determinism [([[97]], [5]), ([[98]], [6])]
      [([[98]], [6]), ([[97]], [5])] Pf8Writer.create (by decide) (by decide)⟩

theorem c2_writer_state_machine_witness :
    (Pf8Entry.new [[97]] 0 0 UNENCRYPTED_FILTER).raw.size ≤ ([] : List Nat).length
    ∧ ((Pf8Writer.create.state = .Created →
        ∃ w', write_header Pf8Writer.create [] = .ok w'
          ∧ w'.state = .HeaderWritten)
      ∧ (Pf8Writer.create.state ≠ .Created →
        ∃ msg, write_header Pf8Writer.create [] = .error (.InvalidFormat msg))
      ∧ (Pf8Writer.create.state = .Created ∨ Pf8Writer.create.state = .Finalized →
        ∃ msg, write_file_data Pf8Writer.create
            (Pf8Entry.new [[97]] 0 0 UNENCRYPTED_FILTER) []
          = .error (.InvalidFormat msg))
      ∧ (Pf8Writer.create.state = .HeaderWritten
          ∨ Pf8Writer.create.state = .WritingData →
        ∃ w', write_file_data Pf8Writer.create
            (Pf8Entry.new [[97]] 0 0 UNENCRYPTED_FILTER) [] = .ok w'
          ∧ w'.state = .WritingData)
      ∧ (Pf8Writer.create.state = .Created →
        ∃ msg, finalize Pf8Writer.create = .error (.InvalidFormat msg))
      ∧ (Pf8Writer.create.state = .HeaderWritten
          ∨ Pf8Writer.create.state = .WritingData →
        ∃ w', finalize Pf8Writer.create = .ok w' ∧ w'.state = .Finalized)
      ∧ (Pf8Writer.create.state = .Finalized →
        finalize Pf8Writer.create = .ok Pf8Writer.create)
      ∧ (Pf8Writer.create.state ≠ .Created →
        ∃ w' w'', finalize Pf8Writer.create = .ok w' ∧ finalize w' = .ok w''
          ∧ w'.state = .Finalized ∧ w'' = w')) :=
  ⟨by decide,
    c2_writer_state_machine Pf8Writer.create []
      (Pf8Entry.new [[97]] 0 0 UNENCRYPTED_FILTER) [] (by decide)⟩


/-- Extracting the payload region written after prefix H recovers every
entry's original content at its recovered path. -/
theorem extractAllPure_roundtrip (k : List Nat) :
    ∀ (pairs : List (Pf8Entry × List Nat)) (H : List Nat),
    (∀ pc ∈ pairs, pc.1.raw.size = pc.2.length) →
    (∀ pc ∈ pairs, pc.1.encrypted
      = !matches_any_pattern pc.1.raw.name UNENCRYPTED_FILTER) →
    H.length + (pairs.map (fun pc => pc.2.length)).sum < 4294967296 →
    extractAllPure (H ++ payloadBytes (some k) pairs) (some k)
        ((rawsFor (pairs.map (·.1)) H.length).map
          (fun r => Pf8Entry.from_raw_with_format r UNENCRYPTED_FILTER .Pf8))
      = (pairs.map (fun pc =>
          (pf8_path_to_pathbuf (trimEndNulls pc.1.raw.name), pc.2)), .ok ()) := by
  intro pairs
  induction pairs with
  | nil =>
      intro H _ _ _
      rfl
  | cons pc rest ih =>
      intro H hsz henc hbound
      rcases pc with ⟨e, c⟩
      have hsz0 : e.raw.size = c.length := hsz (e, c) (by simp)
      have henc0 : e.encrypted
          = !matches_any_pattern e.raw.name UNENCRYPTED_FILTER :=
        henc (e, c) (by simp)
      have htake : c.take e.raw.size = c := by
        rw [hsz0]
        exact List.take_length c
      simp only [List.map_cons, rawsFor, payloadBytes, htake, List.sum_cons]
        at hbound ⊢
      simp only [extractAllPure]
      have hBlen : (writeTransform (some k) e.encrypted c).length
          = c.length := by
        rw [writeTransform_length]
      have hb : (Pf8Entry.from_raw_with_format
            { name := e.raw.name, offset := H.length, size := e.raw.size }
            UNENCRYPTED_FILTER .Pf8).raw.offset
          + (Pf8Entry.from_raw_with_format
            { name := e.raw.name, offset := H.length, size := e.raw.size }
            UNENCRYPTED_FILTER .Pf8).raw.size
          ≤ (H ++ (writeTransform (some k) e.encrypted c
              ++ payloadBytes (some k) rest)).length := by
        show H.length + e.raw.size ≤ _
        simp only [List.length_append, hBlen]
        omega
      rw [entryPayloadResult_some _ k _ hb]
      simp only [Pf8Entry.from_raw_with_format]
      have hslice : ((H ++ (writeTransform (some k) e.encrypted c
            ++ payloadBytes (some k) rest)).drop H.length).take e.raw.size
          = writeTransform (some k) e.encrypted c := by
        rw [show e.raw.size = (writeTransform (some k) e.encrypted c).length
          from by rw [writeTransform_length]; exact hsz0]
        exact drop_take_exact H _ _
      rw [hslice]
      have hdecode : (if !matches_any_pattern e.raw.name UNENCRYPTED_FILTER
            then xorAt k 0 (writeTransform (some k) e.encrypted c)
            else writeTransform (some k) e.encrypted c)
          = c := by
        rw [← henc0]
        cases he : e.encrypted
        · rw [if_neg (by simp), writeTransform_plain]
        · rw [if_pos rfl, writeTransform_enc, xorAt_xorAt]
      rw [hdecode]
      have hoff : (H.length + e.raw.size) % 4294967296
          = (H ++ writeTransform (some k) e.encrypted c).length := by
        simp only [List.length_append, hBlen]
        rw [hsz0]
        exact Nat.mod_eq_of_lt (by omega)
      have harch : H ++ (writeTransform (some k) e.encrypted c
            ++ payloadBytes (some k) rest)
          = (H ++ writeTransform (some k) e.encrypted c)
            ++ payloadBytes (some k) rest := by
        simp [List.append_assoc]
      simp only [Pf8Entry.from_raw_with_format] at ih
      rw [hoff, harch,
        ih (H ++ writeTransform (some k) e.encrypted c)
          (fun x hx => hsz x (by simp [hx]))
          (fun x hx => henc x (by simp [hx]))
          (by simp only [List.length_append, hBlen]; omega)]

theorem entriesOf_mem (fs : List BFile) :
    ∀ t pc, pc ∈ entriesOf fs t → ∃ f ∈ fs,
      pc.1.raw.name = pathbuf_to_pf8_path f.1 ∧ pc.2 = f.2 := by
  induction fs with
  | nil => intro t pc h; cases h
  | cons f rest ih =>
      intro t pc h
      rcases f with ⟨p, c⟩
      rcases List.mem_cons.mp h with h | h
      · subst h
        exact ⟨(p, c), by simp, rfl, rfl⟩
      · obtain ⟨g, hg, h1, h2⟩ := ih _ pc h
        exact ⟨g, by simp [hg], h1, h2⟩

theorem entriesOf_enc (fs : List BFile) :
    ∀ t pc, pc ∈ entriesOf fs t →
      pc.1.encrypted = !matches_any_pattern pc.1.raw.name UNENCRYPTED_FILTER := by
  induction fs with
  | nil => intro t pc h; cases h
  | cons f rest ih =>
      intro t pc h
      rcases f with ⟨p, c⟩
      rcases List.mem_cons.mp h with h | h
      · subst h
        rfl
      · exact ih _ pc h

theorem entriesOf_names (fs : List BFile) :
    ∀ t, (entriesOf fs t).map (fun pc => pc.1.raw.name.length + 16)
      = fs.map (fun f => (pathbuf_to_pf8_path f.1).length + 16) := by
  induction fs with
  | nil => intro t; rfl
  | cons f rest ih =>
      intro t
      rcases f with ⟨p, c⟩
      simp only [entriesOf, List.map_cons, ih]
      rfl

theorem entriesOf_contents (fs : List BFile) :
    ∀ t, (entriesOf fs t).map (fun pc => pc.2.length)
      = fs.map (fun f => f.2.length) := by
  induction fs with
  | nil => intro t; rfl
  | cons f rest ih =>
      intro t
      rcases f with ⟨p, c⟩
      simp only [entriesOf, List.map_cons, ih]

theorem entriesOf_length (fs : List BFile) :
    ∀ t, (entriesOf fs t).length = fs.length := by
  induction fs with
  | nil => intro t; rfl
  | cons f rest ih =>
      intro t
      rcases f with ⟨p, c⟩
      simp [entriesOf, ih]

theorem entriesOf_extractMap (fs : List BFile)
    (hp : ∀ f ∈ fs, f.1 ≠ []
      ∧ ∀ comp ∈ f.1, (0 : Nat) ∉ comp ∧ (92 : Nat) ∉ comp) :
    ∀ t, (entriesOf fs t).map
        (fun pc => (pf8_path_to_pathbuf (trimEndNulls pc.1.raw.name), pc.2))
      = fs := by
  induction fs with
  | nil => intro t; rfl
  | cons f rest ih =>
      intro t
      rcases f with ⟨p, c⟩
      obtain ⟨hne, hcomp⟩ := hp (p, c) (by simp)
      simp only [entriesOf, List.map_cons]
      rw [ih (fun x hx => hp x (by simp [hx]))]
      show (pf8_path_to_pathbuf (trimEndNulls (pathbuf_to_pf8_path p)), c)
          :: rest = _
      rw [path_roundtrip p hne (fun comp hc => (hcomp comp hc).1)
        (fun comp hc => (hcomp comp hc).2)]

set_option maxHeartbeats 1000000 in
/-- C1: pack/unpack round-trip.  For every non-empty list of source files
(archive path components free of NUL and backslash bytes, names valid
UTF-8, total size within u32 range), `write_to_writer` on a fresh writer
succeeds, `Pf8Reader.open` accepts the produced archive, and
`extract_all` succeeds and emits output files that are a permutation of
the input files: every input file (zero-byte and nested-path files
included) reappears with the same relative path and byte-identical
content. -/
theorem c1_roundtrip (files : List BFile)
    (hne : files ≠ [])
    (hpaths : ∀ f ∈ files, f.1 ≠ []
      ∧ ∀ comp ∈ f.1, (0 : Nat) ∉ comp ∧ (92 : Nat) ∉ comp)
    (hutf : ∀ f ∈ files, utf8Valid (pathbuf_to_pf8_path f.1) = true)
    (hbound : 19 + (files.map (fun f => (pathbuf_to_pf8_path f.1).length + 16)).sum
      + (files.length + 1) * 8 + (files.map (fun f => f.2.length)).sum
      < 4294967296) :
    ∃ w, write_to_writer files Pf8Writer.create = .ok w
      ∧ ∃ r, Pf8Reader.open w.output UNENCRYPTED_FILTER = .ok r
        ∧ (extract_all r).2 = .ok ()
        ∧ (extract_all r).1.Perm files := by
  have hperm := List.perm_insertionSort (fun a b : BFile => a.1 ≤ b.1) files
  have hcsum : ((entriesOf (sortedFiles files) 0).map (fun pc => pc.2.length)).sum
      = (files.map (fun f => f.2.length)).sum := by
    rw [entriesOf_contents]
    exact (hperm.map (fun f : BFile => f.2.length)).sum_eq
  have hfes : fileentrySize ((entriesOf (sortedFiles files) 0).map (·.1))
      = (files.map (fun f => (pathbuf_to_pf8_path f.1).length + 16)).sum := by
    unfold fileentrySize
    rw [List.map_map]
    rw [show ((fun e : Pf8Entry => e.raw.name.length + 16) ∘ (·.1))
        = (fun pc : Pf8Entry × List Nat => pc.1.raw.name.length + 16) from rfl]
    rw [entriesOf_names]
    exact (hperm.map (fun f : BFile =>
      (pathbuf_to_pf8_path f.1).length + 16)).sum_eq
  have hlen : ((entriesOf (sortedFiles files) 0).map (·.1)).length
      = files.length := by
    rw [List.length_map, entriesOf_length]
    exact hperm.length_eq
  have hb : 4 + fileentrySize ((entriesOf (sortedFiles files) 0).map (·.1)) + 4
      + (((entriesOf (sortedFiles files) 0).map (·.1)).length + 1) * 8 + 4
      < 4294967296 := by
    rw [hfes, hlen]
    omega
  have hszfiles : ∀ f ∈ files, f.2.length ≤ 4294967295 := by
    intro f hf
    have hm : f.2.length ∈ files.map (fun f => f.2.length) :=
      List.mem_map_of_mem _ hf
    have := List.single_le_sum (fun (x : Nat) _ => Nat.zero_le x) _ hm
    omega
  obtain ⟨w, hw, hout⟩ := write_to_writer_ok files hne hszfiles
  refine ⟨w, hw, ?_⟩
  rw [hout]
  have hn : ∀ e ∈ (entriesOf (sortedFiles files) 0).map (·.1),
      e.raw.name.length < 4294967296 ∧ e.raw.size < 4294967296
        ∧ utf8Valid e.raw.name = true := by
    intro e he
    obtain ⟨pc, hpc, hpceq⟩ := List.mem_map.mp he
    obtain ⟨f, hf, hname, hc⟩ := entriesOf_mem (sortedFiles files) 0 pc hpc
    have hf2 : f ∈ files := hperm.mem_iff.mp hf
    have hnm : (pathbuf_to_pf8_path f.1).length + 16
        ∈ files.map (fun f => (pathbuf_to_pf8_path f.1).length + 16) :=
      List.mem_map_of_mem _ hf2
    have hnl := List.single_le_sum (fun (x : Nat) _ => Nat.zero_le x) _ hnm
    have hsz := entriesOf_size (sortedFiles files) 0 pc hpc
    have hcm : f.2.length ∈ files.map (fun f => f.2.length) :=
      List.mem_map_of_mem _ hf2
    have hcl := List.single_le_sum (fun (x : Nat) _ => Nat.zero_le x) _ hcm
    refine ⟨?_, ?_, ?_⟩
    · rw [← hpceq, hname]
      omega
    · rw [← hpceq, hsz, hc]
      omega
    · rw [← hpceq, hname]
      exact hutf f hf2
  have hopen := open_header_archive
    ((entriesOf (sortedFiles files) 0).map (·.1))
    (payloadBytes
      (some (headerKey ((entriesOf (sortedFiles files) 0).map (·.1))))
      (entriesOf (sortedFiles files) 0)) hb hn
  refine ⟨_, hopen, ?_⟩
  have hds : dataStartVal ((entriesOf (sortedFiles files) 0).map (·.1))
      = (headerBytes ((entriesOf (sortedFiles files) 0).map (·.1))).length := by
    unfold dataStartVal
    rw [headerBytes_length_eq _ hb, indexSizeVal_eq _ hb,
      Nat.mod_eq_of_lt (by rw [hfes, hlen]; omega)]
    omega
  have hrt := extractAllPure_roundtrip
    (headerKey ((entriesOf (sortedFiles files) 0).map (·.1)))
    (entriesOf (sortedFiles files) 0)
    (headerBytes ((entriesOf (sortedFiles files) 0).map (·.1)))
    (entriesOf_size (sortedFiles files) 0)
    (entriesOf_enc (sortedFiles files) 0)
    (by
      rw [headerBytes_length_eq _ hb, indexSizeVal_eq _ hb, hfes, hlen, hcsum]
      omega)
  rw [← hds] at hrt
  have hext : extract_all
      { file := headerBytes ((entriesOf (sortedFiles files) 0).map (·.1))
          ++ payloadBytes
            (some (headerKey ((entriesOf (sortedFiles files) 0).map (·.1))))
            (entriesOf (sortedFiles files) 0)
        entries := (rawsFor ((entriesOf (sortedFiles files) 0).map (·.1))
            (dataStartVal ((entriesOf (sortedFiles files) 0).map (·.1)))).map
          (fun r => Pf8Entry.from_raw_with_format r UNENCRYPTED_FILTER .Pf8)
        encryption_key :=
          some (headerKey ((entriesOf (sortedFiles files) 0).map (·.1)))
        format := .Pf8 }
      = ((entriesOf (sortedFiles files) 0).map (fun pc =>
          (pf8_path_to_pathbuf (trimEndNulls pc.1.raw.name), pc.2)), .ok ()) := by
    rw [extract_all_eq_pure]
    exact hrt
  rw [hext]
  refine ⟨rfl, ?_⟩
  show ((entriesOf (sortedFiles files) 0).map (fun pc =>
      (pf8_path_to_pathbuf (trimEndNulls pc.1.raw.name), pc.2))).Perm files
  rw [entriesOf_extractMap (sortedFiles files)
    (fun x hx => hpaths x (hperm.mem_iff.mp hx)) 0]
  exact hperm

theorem c1_roundtrip_witness :
    ∃ w, write_to_writer [([[97]], [1, 2, 3]), ([[98], [99]], [])]
        Pf8Writer.create = .ok w
      ∧ ∃ r, Pf8Reader.open w.output UNENCRYPTED_FILTER = .ok r
        ∧ (extract_all r).2 = .ok ()
        ∧ (extract_all r).1.Perm [([[97]], [1, 2, 3]), ([[98], [99]], [])] :=
  c1_roundtrip [([[97]], [1, 2, 3]), ([[98], [99]], [])]
    (by decide) (by decide) (by decide) (by decide)

end Pfs
